import Mathlib

/-!
Verification of the SCP quorum-set utilities and driver helpers
(`QuorumSetUtils.cpp`, `SCPDriver.cpp`).

Quorum sets are a recursive tree structure: a `threshold`, a list of
`validators` (node identifiers) and a list of inner quorum sets.  The
development embeds the sanity checker, the normalizer (simplify +
reorder), the quorum-set comparator, the leader-election hash
extraction and the round timeout policy, and proves the specified
properties about them.
-/

namespace SCP

/-- `SCPQuorumSet`: threshold (a `uint32`, modelled as `Nat`; arithmetic on
it is done mod `2^32` where the code can wrap), validators (opaque, totally
ordered `NodeID`s, modelled as natural numbers), inner sets. -/
inductive QSet where
  | mk (threshold : Nat) (validators : List Nat) (innerSets : List QSet)

namespace QSet

def threshold : QSet → Nat
  | mk t _ _ => t

def validators : QSet → List Nat
  | mk _ v _ => v

def innerSets : QSet → List QSet
  | mk _ _ i => i

@[simp] theorem threshold_mk (t : Nat) (v : List Nat) (i : List QSet) :
    (QSet.mk t v i).threshold = t := rfl

@[simp] theorem validators_mk (t : Nat) (v : List Nat) (i : List QSet) :
    (QSet.mk t v i).validators = v := rfl

@[simp] theorem innerSets_mk (t : Nat) (v : List Nat) (i : List QSet) :
    (QSet.mk t v i).innerSets = i := rfl

theorem ext_iff (a b : QSet) :
    a = b ↔ a.threshold = b.threshold ∧ a.validators = b.validators ∧
      a.innerSets = b.innerSets := by
  cases a; cases b
  constructor
  · intro h; cases h; exact ⟨rfl, rfl, rfl⟩
  · rintro ⟨h1, h2, h3⟩
    simp only [threshold_mk, validators_mk, innerSets_mk] at h1 h2 h3
    rw [h1, h2, h3]

end QSet

mutual

def qsetDecEq : (a b : QSet) → Decidable (a = b)
  | .mk t v i, .mk t' v' i' =>
    match Nat.decEq t t' with
    | .isFalse h => .isFalse (fun hc => by cases hc; exact h rfl)
    | .isTrue h1 =>
      match List.hasDecEq v v' with
      | .isFalse h => .isFalse (fun hc => by cases hc; exact h rfl)
      | .isTrue h2 =>
        match qsetListDecEq i i' with
        | .isFalse h => .isFalse (fun hc => by cases hc; exact h rfl)
        | .isTrue h3 => .isTrue (by rw [h1, h2, h3])

def qsetListDecEq : (a b : List QSet) → Decidable (a = b)
  | [], [] => .isTrue rfl
  | [], _ :: _ => .isFalse (by simp)
  | _ :: _, [] => .isFalse (by simp)
  | x :: xs, y :: ys =>
    match qsetDecEq x y with
    | .isFalse h => .isFalse (fun hc => by cases hc; exact h rfl)
    | .isTrue h1 =>
      match qsetListDecEq xs ys with
      | .isFalse h => .isFalse (fun hc => by cases hc; exact h rfl)
      | .isTrue h2 => .isTrue (by rw [h1, h2])

end

instance : DecidableEq QSet := qsetDecEq

/-! ## Sanity checker (`QuorumSetUtils.cpp`, `QuorumSetSanityChecker`) -/

/-- The reason strings of the sanity checker, as symbolic constants. -/
inductive Reason where
  | depthExceeded
  | thresholdTooLow
  | thresholdExceedsEntries
  | extraCheckTooLow
  | duplicateNode
  | countZero
  | countExceedsLimit
deriving DecidableEq, Repr

/-- Inserting the validator list into `mKnownNodes` one by one; `none` when an
insertion hits an already-present node (`r.second == false`). -/
def insertAll (known : List Nat) : List Nat → Option (List Nat)
  | [] => some known
  | n :: rest => if n ∈ known then none else insertAll (n :: known) rest

mutual

/-- `QuorumSetSanityChecker::checkSanity`.  The state threaded through the
recursion is `mKnownNodes` (a list used as a set) and `mCount`; on failure the
accumulated `mCount` is kept (it is a member variable in the source). -/
def checkSanity (extra : Bool) : QSet → Nat → List Nat → Nat →
    Except (Reason × Nat) (List Nat × Nat)
  | .mk t v i, depth, known, cnt =>
    if depth > 2 then .error (.depthExceeded, cnt)
    else if t < 1 then .error (.thresholdTooLow, cnt)
    else
      let tot := v.length + i.length
      let cnt1 := cnt + v.length
      if t > tot then .error (.thresholdExceedsEntries, cnt1)
      else if extra && decide (t < tot - t + 1) then .error (.extraCheckTooLow, cnt1)
      else
        match insertAll known v with
        | none => .error (.duplicateNode, cnt1)
        | some known1 => checkSanityList extra i (depth + 1) known1 cnt1

/-- The loop over `qSet.innerSets`, with the first failure propagating. -/
def checkSanityList (extra : Bool) : List QSet → Nat → List Nat → Nat →
    Except (Reason × Nat) (List Nat × Nat)
  | [], _, known, cnt => .ok (known, cnt)
  | s :: rest, depth, known, cnt =>
    match checkSanity extra s depth known cnt with
    | .error e => .error e
    | .ok (known1, cnt1) => checkSanityList extra rest depth known1 cnt1

end

/-- The `QuorumSetSanityChecker` constructor: run `checkSanity` from depth 0
with empty state, then apply the final validator-count bound checks (these
overwrite the reason and force `mIsSane := false`). Returns
`(isSane, reason)`. -/
def isQuorumSetSaneFull (q : QSet) (extra : Bool) : Bool × Option Reason :=
  match checkSanity extra q 0 [] 0 with
  | .error (r, cnt) =>
    if cnt < 1 then (false, some .countZero)
    else if cnt > 1000 then (false, some .countExceedsLimit)
    else (false, some r)
  | .ok (_, cnt) =>
    if cnt < 1 then (false, some .countZero)
    else if cnt > 1000 then (false, some .countExceedsLimit)
    else (true, none)

/-- `isQuorumSetSane` (the boolean result `checker.isSane()`). -/
def isQuorumSetSane (q : QSet) (extra : Bool) : Bool :=
  (isQuorumSetSaneFull q extra).1

/-! ## Normalizer (`normalizeQSetSimplify`, `normalizeQuorumSetReorder`) -/

/-- `2^32`, the modulus of `uint32` arithmetic. -/
def U32 : Nat := 2 ^ 32

/-- `uint32` subtraction `a - b` (wrap-around modular arithmetic). -/
def u32sub (a b : Nat) : Nat := (a % U32 + (U32 - b % U32)) % U32

/-- The node-removal step at one node (`remove_if` + `erase` on the validator
list, and `threshold -= uint32(#removed)` in `uint32` arithmetic). -/
def removeStep (x : Option Nat) (q : QSet) : QSet :=
  match x with
  | none => q
  | some id =>
    QSet.mk (u32sub q.threshold (q.validators.count id))
      (q.validators.filter (fun n => decide (n ≠ id)))
      q.innerSets

/-- The merge test of the simplify loop: `threshold == 1`, exactly one
validator and no inner sets. -/
def isMS (s : QSet) : Bool :=
  s.threshold == 1 && s.validators.length == 1 && s.innerSets.isEmpty

/-- The validator merged out of a singleton inner set (`validators.front()`). -/
def msVal (s : QSet) : Option Nat :=
  match s with
  | .mk 1 [n] [] => some n
  | _ => none

mutual

/-- `normalizeQSetSimplify`: remove the designated node, recursively simplify
the inner sets merging singletons into the validator list, then collapse the
node itself if it became `{threshold 1, no validators, one inner set}`. -/
def normalizeQSetSimplify (x : Option Nat) : QSet → QSet
  | q@(.mk _ _ i) =>
    let q1 := removeStep x q
    let sims := simplifyList x i
    let merged := sims.filterMap msVal
    let keep := sims.filter (fun s => !(isMS s))
    let v2 := q1.validators ++ merged
    if q1.threshold = 1 ∧ v2 = [] ∧ keep.length = 1 then keep.headD q1
    else .mk q1.threshold v2 keep

/-- The recursive simplification of each inner set, in order. -/
def simplifyList (x : Option Nat) : List QSet → List QSet
  | [] => []
  | s :: rest => normalizeQSetSimplify x s :: simplifyList x rest

end

/-- The three-valued comparator on node identifiers (`NodeID`, modelled as
natural numbers) used by `qSetCompareInt`. -/
def natCmp (a b : Nat) : Int := if a < b then -1 else if b < a then 1 else 0

/-- `intLexicographicalCompare` instantiated at the validator lists. -/
def valsCompare : List Nat → List Nat → Int
  | [], [] => 0
  | [], _ :: _ => -1
  | _ :: _, [] => 1
  | a :: as, b :: bs =>
    let c := natCmp a b
    if c ≠ 0 then c else valsCompare as bs

mutual

/-- `qSetCompareInt`: lexicographic three-way comparison by validators, then
inner sets, then threshold. -/
def qSetCompareInt : QSet → QSet → Int
  | .mk lt lv li, .mk rt rv ri =>
    let res := valsCompare lv rv
    if res ≠ 0 then res
    else
      let res2 := innerCompare li ri
      if res2 ≠ 0 then res2
      else if lt < rt then -1 else if lt = rt then 0 else 1

/-- `intLexicographicalCompare` instantiated at the inner-set lists. -/
def innerCompare : List QSet → List QSet → Int
  | [], [] => 0
  | [], _ :: _ => -1
  | _ :: _, [] => 1
  | a :: as, b :: bs =>
    let c := qSetCompareInt a b
    if c ≠ 0 then c else innerCompare as bs

end

/-- The ordering relation under which `std::sort` arranges the inner sets
(`qSetCompareInt l r < 0` as a non-strict relation, which determines the same
unique sorted list because ties are structural equality). -/
def qSetLE (a b : QSet) : Prop := qSetCompareInt a b ≤ 0

instance : DecidableRel qSetLE := fun a b =>
  inferInstanceAs (Decidable (qSetCompareInt a b ≤ 0))

mutual

/-- `normalizeQuorumSetReorder`: sort validators, recursively reorder inner
sets, then sort the inner sets by `qSetCompareInt`. -/
def normalizeQuorumSetReorder : QSet → QSet
  | .mk t v i =>
    let i1 := reorderList i
    QSet.mk t (v.insertionSort (· ≤ ·)) (i1.insertionSort qSetLE)

/-- Recursive reordering of each inner set. -/
def reorderList : List QSet → List QSet
  | [] => []
  | s :: rest => normalizeQuorumSetReorder s :: reorderList rest

end

/-- `normalizeQSet`: the simplify pass followed by the reorder pass. -/
def normalizeQSet (x : Option Nat) (q : QSet) : QSet :=
  normalizeQuorumSetReorder (normalizeQSetSimplify x q)

/-! ## `SCPDriver.cpp`: hashing helpers and the round timeout -/

/-- An opaque `Value` (an XDR byte blob). -/
abbrev Value := List Nat

/-- A `uint512` digest, viewed through its byte accessor `hash[i]`. -/
abbrev Digest := Nat → Nat

/-- Domain-separation tag for neighbor selection. -/
def hash_N : Nat := 1
/-- Domain-separation tag for priority selection. -/
def hash_P : Nat := 2
/-- Domain-separation tag for value hashing. -/
def hash_K : Nat := 3

/-- `hashHelper`: fold `res = (res << 8) | hash[i]` over the first 8 bytes. -/
def hashHelper (h : Digest) : Nat :=
  (List.range 8).foldl (fun res i => (res <<< 8) ||| h i) 0

/-- `SCPDriver::computeHashNode`, parameterized by the opaque `getHashOf`. -/
def computeHashNode (getHashOf : Nat → Value → Nat → Int → Nat → Digest)
    (slotIndex : Nat) (prev : Value) (isPriority : Bool) (roundNumber : Int)
    (nodeID : Nat) : Nat :=
  hashHelper
    (getHashOf slotIndex prev (if isPriority then hash_P else hash_N) roundNumber nodeID)

/-- `SCPDriver::computeValueHash`, parameterized by the opaque `getHashOf`. -/
def computeValueHash (getHashOf : Nat → Value → Nat → Int → Value → Digest)
    (slotIndex : Nat) (prev : Value) (roundNumber : Int) (value : Value) : Nat :=
  hashHelper (getHashOf slotIndex prev hash_K roundNumber value)

/-- `MAX_TIMEOUT_SECONDS = 30 * 60`. -/
def MAX_TIMEOUT_SECONDS : Nat := 30 * 60

/-- `SCPDriver::computeTimeout`, returning the duration in milliseconds
(the `std::chrono::seconds` result converted to `milliseconds`). -/
def computeTimeout (roundNumber : Nat) : Nat :=
  let timeoutInSeconds :=
    if roundNumber > MAX_TIMEOUT_SECONDS then MAX_TIMEOUT_SECONDS else roundNumber
  timeoutInSeconds * 1000

/-! ## Observers of the tree, and the spec-side invariant predicates

The predicates below are the specification side of the refinement claims:
they are written following the wording of the specification (§3 invariants,
§4.1 check order), to be compared with the checker embedded above. -/

mutual

/-- All validator leaves of the whole tree, in depth-first order (entries
before inner sets, inner sets in given order). -/
def vals : QSet → List Nat
  | .mk _ v i => v ++ valsList i

def valsList : List QSet → List Nat
  | [] => []
  | s :: rest => vals s ++ valsList rest

end

mutual

/-- Spec wording: every node of the tree sits at depth ≤ 2, the root being at
depth `d`. -/
def specDepthOk : QSet → Nat → Bool
  | .mk _ _ i, d => decide (d ≤ 2) && specDepthOkList i (d + 1)

def specDepthOkList : List QSet → Nat → Bool
  | [], _ => true
  | s :: rest, d => specDepthOk s d && specDepthOkList rest d

end

mutual

/-- Spec wording: at every node, `threshold ≥ 1` and
`threshold ≤ |validators| + |innerSets|`. -/
def specThresholdsOk : QSet → Bool
  | .mk t v i =>
    decide (1 ≤ t) && decide (t ≤ v.length + i.length) && specThresholdsOkList i

def specThresholdsOkList : List QSet → Bool
  | [] => true
  | s :: rest => specThresholdsOk s && specThresholdsOkList rest

end

mutual

/-- Spec wording: at every node, `threshold ≥ |validators| + |innerSets| −
threshold + 1` (the extra blocking-set check). -/
def specExtraOk : QSet → Bool
  | .mk t v i =>
    decide (v.length + i.length - t + 1 ≤ t) && specExtraOkList i

def specExtraOkList : List QSet → Bool
  | [] => true
  | s :: rest => specExtraOk s && specExtraOkList rest

end

/-- Spec wording of the duplicate check: walk the validator list in order,
recording a duplicate-node violation for every validator already known and
inserting the fresh ones. Returns the violations and the updated known set. -/
def specInsert (known : List Nat) : List Nat → List Reason × List Nat
  | [] => ([], known)
  | n :: rest =>
    if n ∈ known then
      let (l, k) := specInsert known rest
      (Reason.duplicateNode :: l, k)
    else specInsert (n :: known) rest

mutual

/-- Spec wording of §4.1's check order: collect every violation of the
per-node checks in depth-first traversal order — depth, then threshold ≥ 1,
then threshold ≤ total entries, then the extra blocking check when enabled,
then duplicate validators in list order, then the inner sets in given order.
The first element of this list is the "first violation encountered". -/
def specViolations (e : Bool) : QSet → Nat → List Nat → List Reason × List Nat
  | .mk t v i, d, known =>
    let tot := v.length + i.length
    let l1 := if d > 2 then [Reason.depthExceeded] else []
    let l2 := if t < 1 then [Reason.thresholdTooLow] else []
    let l3 := if t > tot then [Reason.thresholdExceedsEntries] else []
    let l4 := if e && decide (t < tot - t + 1) then [Reason.extraCheckTooLow] else []
    let p5 := specInsert known v
    let p6 := specViolationsList e i (d + 1) p5.2
    (l1 ++ l2 ++ l3 ++ l4 ++ p5.1 ++ p6.1, p6.2)

def specViolationsList (e : Bool) : List QSet → Nat → List Nat → List Reason × List Nat
  | [], _, known => ([], known)
  | s :: rest, d, known =>
    let p := specViolations e s d known
    let p' := specViolationsList e rest d p.2
    (p.1 ++ p'.1, p'.2)

end

/-- The collapse test of the simplify pass: `threshold == 1`, no validators
and exactly one inner set. -/
def collapsibleB (s : QSet) : Bool :=
  s.threshold == 1 && s.validators.isEmpty && s.innerSets.length == 1

mutual

/-- Normal-form invariant of a simplified tree below the root: every non-root
node is neither a merge singleton nor collapsible. -/
def nfNode : QSet → Bool
  | .mk _ _ i => nfList i

def nfList : List QSet → Bool
  | [] => true
  | s :: rest => !(isMS s) && !(collapsibleB s) && nfNode s && nfList rest

end

/-- Full normal-form invariant of the simplify pass output: additionally the
root itself is not collapsible. -/
def simplifiedNF (q : QSet) : Bool := !(collapsibleB q) && nfNode q

/-- Spec wording of the score extraction: the digest's first 8 bytes,
big-endian, as an unsigned 64-bit integer. -/
def specBigEndian8 (h : Digest) : Nat :=
  h 0 * 256 ^ 7 + h 1 * 256 ^ 6 + h 2 * 256 ^ 5 + h 3 * 256 ^ 4 +
  h 4 * 256 ^ 3 + h 5 * 256 ^ 2 + h 6 * 256 + h 7

/-- `QPerm a b`: `b` is obtained from `a` by permuting the validator list and
the inner-set list at any nodes, recursively. -/
inductive QPerm : QSet → QSet → Prop where
  | mk {t : Nat} {v v' : List Nat} {i i' j : List QSet} :
      v.Perm v' → List.Forall₂ QPerm i j → j.Perm i' →
      QPerm (.mk t v i) (.mk t v' i')

mutual

/-- Simultaneous induction over a quorum-set tree and lists of trees. -/
def qsetInd {P : QSet → Prop} {PL : List QSet → Prop}
    (hmk : ∀ t v i, PL i → P (.mk t v i))
    (hnil : PL [])
    (hcons : ∀ s rest, P s → PL rest → PL (s :: rest)) : ∀ q, P q
  | .mk t v i => hmk t v i (qsetListInd hmk hnil hcons i)

def qsetListInd {P : QSet → Prop} {PL : List QSet → Prop}
    (hmk : ∀ t v i, PL i → P (.mk t v i))
    (hnil : PL [])
    (hcons : ∀ s rest, P s → PL rest → PL (s :: rest)) : ∀ l, PL l
  | [] => hnil
  | s :: rest =>
    hcons s rest (qsetInd hmk hnil hcons s) (qsetListInd hmk hnil hcons rest)

end

/-! ## Theorems -/

/-- Shift-then-or on a byte is positional arithmetic. -/
theorem shiftOr (a b : Nat) (h : b < 256) : (a <<< 8) ||| b = a * 256 + b := by
  rw [Nat.shiftLeft_eq]
  have h8 : b < 2 ^ 8 := h
  have h2 := Nat.mul_add_lt_is_or h8 a
  have hc : 2 ^ 8 * a = a * 2 ^ 8 := Nat.mul_comm _ _
  rw [hc] at h2
  omega

/-- The fold of `hashHelper` computes the big-endian value of the first
8 bytes. -/
theorem hashHelper_eq_bigEndian (h : Digest) (hb : ∀ i, i < 8 → h i < 256) :
    hashHelper h = specBigEndian8 h := by
  have hr : List.range 8 = [0, 1, 2, 3, 4, 5, 6, 7] := rfl
  unfold hashHelper
  rw [hr]
  simp only [List.foldl_cons, List.foldl_nil]
  rw [shiftOr _ _ (hb 0 (by omega)), shiftOr _ _ (hb 1 (by omega)),
    shiftOr _ _ (hb 2 (by omega)), shiftOr _ _ (hb 3 (by omega)),
    shiftOr _ _ (hb 4 (by omega)), shiftOr _ _ (hb 5 (by omega)),
    shiftOr _ _ (hb 6 (by omega)), shiftOr _ _ (hb 7 (by omega))]
  unfold specBigEndian8
  ring

/-- C7: `computeHashNode(slotIndex, prev, isPriority, roundNumber, nodeID)`
equals the first 8 bytes, big-endian, of
`Hash(slotIndex, prev, tag, roundNumber, nodeID)` with tag 2 when
`isPriority` and tag 1 otherwise, and `computeValueHash` equals the same
extraction of `Hash(slotIndex, prev, 3, roundNumber, value)`; both are
functions of their arguments and the opaque hash, hence deterministic. -/
theorem computeHash_spec (H : Nat → Value → Nat → Int → Nat → Digest)
    (HV : Nat → Value → Nat → Int → Value → Digest)
    (s : Nat) (p : Value) (pr : Bool) (r : Int) (n : Nat) (val : Value)
    (hb : ∀ i, i < 8 → H s p (if pr then 2 else 1) r n i < 256)
    (hbv : ∀ i, i < 8 → HV s p 3 r val i < 256) :
    computeHashNode H s p pr r n = specBigEndian8 (H s p (if pr then 2 else 1) r n) ∧
    computeValueHash HV s p r val = specBigEndian8 (HV s p 3 r val) := by
  constructor
  · unfold computeHashNode
    have hPN : (if pr then hash_P else hash_N) = (if pr then 2 else 1) := by
      cases pr <;> rfl
    rw [hPN]
    exact hashHelper_eq_bigEndian _ hb
  · unfold computeValueHash
    exact hashHelper_eq_bigEndian _ hbv

/-- Witness for C7 at a concrete hash function and concrete inputs. -/
theorem computeHash_spec_witness :
    computeHashNode (fun _ _ t _ _ i => t + i) 4 [1] true 7 9 =
      specBigEndian8 (fun i => 2 + i) := by
  exact (computeHash_spec (fun _ _ t _ _ i => t + i) (fun _ _ t _ _ i => t + i)
    4 [1] true 7 9 [2] (by decide) (by decide)).1

/-- C6: `computeTimeout(r)` is a duration of exactly `min r 1800` seconds
(expressed in milliseconds), it is non-decreasing in `r`, it is 0 at round 0,
and it is exactly 1800 seconds for all `r ≥ 1800`. -/
theorem computeTimeout_spec (r : Nat) :
    computeTimeout r = min r 1800 * 1000 ∧
    (∀ s, r ≤ s → computeTimeout r ≤ computeTimeout s) ∧
    computeTimeout 0 = 0 ∧
    (1800 ≤ r → computeTimeout r = 1800 * 1000) := by
  have key0 : ∀ m, computeTimeout m = (if m > 1800 then 1800 else m) * 1000 :=
    fun _ => rfl
  have key : ∀ m, computeTimeout m = min m 1800 * 1000 := by
    intro m
    rw [key0]
    rcases Nat.lt_or_ge 1800 m with h | h
    · rw [if_pos h, Nat.min_eq_right (Nat.le_of_lt h)]
    · rw [if_neg (by omega), Nat.min_eq_left h]
  refine ⟨key r, ?_, ?_, ?_⟩
  · intro s hs
    rw [key r, key s]
    have hm : min r 1800 ≤ min s 1800 := by omega
    exact Nat.mul_le_mul_right 1000 hm
  · rw [key 0]
    rfl
  · intro h
    rw [key r]
    rw [Nat.min_eq_right h]

/-- Witness for C6 at round 2052 (the cap applies). -/
theorem computeTimeout_spec_witness : computeTimeout 2052 = 1800 * 1000 :=
  (computeTimeout_spec 2052).2.2.2 (by decide)

/-- Numeric value of the `uint32` modulus. -/
theorem U32_val : U32 = 4294967296 := by norm_num [U32]

/-- C9: when the validator list contains the node to remove `k` times with
`k` greater than the current threshold `t`, the removal step sets the
threshold to `(t − k) mod 2^32` — the wrap-around value `2^32 + t − k`,
which is nonzero — and not to 0. -/
theorem removeStep_threshold_wraps (q : QSet) (x : Nat)
    (ht : q.threshold < U32) (hk : q.validators.count x < U32)
    (hlt : q.threshold < q.validators.count x) :
    (removeStep (some x) q).threshold = U32 + q.threshold - q.validators.count x ∧
    (removeStep (some x) q).threshold ≠ 0 ∧
    ((removeStep (some x) q).threshold : Int) =
      ((q.threshold : Int) - (q.validators.count x : Int)) % ((U32 : Nat) : Int) := by
  have hrs : (removeStep (some x) q).threshold =
      u32sub q.threshold (q.validators.count x) := rfl
  rw [hrs]
  unfold u32sub
  rw [U32_val] at ht hk ⊢
  have h1 : q.threshold % 4294967296 = q.threshold := Nat.mod_eq_of_lt ht
  have h2 : q.validators.count x % 4294967296 = q.validators.count x :=
    Nat.mod_eq_of_lt hk
  rw [h1, h2]
  have h3 : q.threshold + (4294967296 - q.validators.count x) < 4294967296 := by omega
  rw [Nat.mod_eq_of_lt h3]
  refine ⟨by omega, by omega, ?_⟩
  omega

/-- Witness for C9: removing a node present once from a node with
threshold 0 wraps the threshold to `2^32 − 1`. -/
theorem removeStep_threshold_wraps_witness :
    (removeStep (some 7) (QSet.mk 0 [7] [])).threshold = U32 + 0 - 1 :=
  (removeStep_threshold_wraps (QSet.mk 0 [7] []) 7
    (by rw [U32_val]; decide) (by rw [U32_val]; decide) (by decide)).1

/-- Filtering out one `Nat` shortens the list by its number of
occurrences. -/
theorem filterNe_length (x : Nat) (l : List Nat) :
    (l.filter (fun n => decide (n ≠ x))).length = l.length - l.count x := by
  induction l with
  | nil => rfl
  | cons a l ih =>
    have hcle := List.count_le_length x l
    by_cases h : a = x
    · subst h
      simp only [List.filter_cons, List.count_cons]
      rw [decide_eq_false (by simp), if_neg (by simp)]
      simp only [beq_self_eq_true, if_true, List.length_cons, ih]
      omega
    · simp only [List.filter_cons, List.count_cons]
      rw [decide_eq_true (by simp [h] : a ≠ x), if_pos rfl]
      simp only [List.length_cons, ih]
      rw [if_neg (by simp [h])]
      omega

/-- Filtering out one `Nat` keeps the multiplicity of every other one. -/
theorem filterNe_count (x y : Nat) (l : List Nat) (h : y ≠ x) :
    (l.filter (fun n => decide (n ≠ x))).count y = l.count y :=
  List.count_filter (by simp [h])

/-- Validators of the root node are validator leaves of the tree. -/
theorem validators_subset_vals (t : Nat) (v : List Nat) (i : List QSet) :
    ∀ n, n ∈ v → n ∈ vals (QSet.mk t v i) := by
  intro n hn
  unfold vals
  exact List.mem_append_left _ hn

/-- C5 as literally stated is false: in a node with threshold 0 whose
validator list contains the node to remove exactly once, the removal step
does not decrease the threshold by 1 (it wraps around to `2^32 − 1`). -/
theorem removeStep_decrement_counterexample :
    (QSet.mk 0 [7] []).validators.count 7 = 1 ∧
    ¬ ((removeStep (some 7) (QSet.mk 0 [7] [])).threshold : Int) =
      ((QSet.mk 0 [7] []).threshold : Int) - 1 := by
  constructor
  · decide
  · intro h
    have hv : (removeStep (some 7) (QSet.mk 0 [7] [])).threshold = 4294967295 := by
      decide
    rw [hv] at h
    norm_num at h

/-- C5 amended: for every node whose threshold is at least 1 (and is a
`uint32` value) and whose validator list contains `x` exactly once, the
removal step removes `x` from the validator list (keeping all other
occurrences) and decreases the threshold by exactly 1; and for every node
whose subtree does not contain `x` at all, the removal step changes
nothing. -/
theorem removeStep_spec (q : QSet) (x : Nat) (ht : q.threshold < U32) :
    (q.validators.count x = 1 → 1 ≤ q.threshold →
      (removeStep (some x) q).threshold = q.threshold - 1 ∧
      x ∉ (removeStep (some x) q).validators ∧
      (removeStep (some x) q).validators.length = q.validators.length - 1 ∧
      (∀ y, y ≠ x → (removeStep (some x) q).validators.count y = q.validators.count y) ∧
      (removeStep (some x) q).innerSets = q.innerSets) ∧
    (x ∉ vals q → removeStep (some x) q = q) := by
  obtain ⟨t, v, i⟩ := q
  rw [U32_val] at ht
  constructor
  · intro hc h1
    simp only [QSet.threshold_mk, QSet.validators_mk] at hc h1 ht
    refine ⟨?_, ?_, ?_, ?_, rfl⟩
    · show u32sub t (v.count x) = t - 1
      rw [hc]
      unfold u32sub
      rw [U32_val]
      have hm1 : t % 4294967296 = t := Nat.mod_eq_of_lt ht
      rw [hm1]
      have hm2 : (1 : Nat) % 4294967296 = 1 := rfl
      rw [hm2]
      omega
    · show x ∉ v.filter (fun n => decide (n ≠ x))
      simp [List.mem_filter]
    · show (v.filter (fun n => decide (n ≠ x))).length = v.length - 1
      rw [filterNe_length, hc]
    · intro y hy
      exact filterNe_count x y v hy
  · intro hnm
    have hnv : x ∉ v := fun hx =>
      hnm (validators_subset_vals t v i x hx)
    have hfe : v.filter (fun n => decide (n ≠ x)) = v := by
      apply List.filter_eq_self.mpr
      intro a ha
      simp only [decide_eq_true_eq]
      intro hax
      exact hnv (hax ▸ ha)
    have hc0 : v.count x = 0 := List.count_eq_zero.mpr hnv
    show QSet.mk (u32sub t (v.count x)) (v.filter (fun n => decide (n ≠ x))) i =
      QSet.mk t v i
    rw [hfe, hc0]
    have hts : u32sub t 0 = t := by
      unfold u32sub
      rw [U32_val]
      simp only [QSet.threshold_mk] at ht
      have hm : t % 4294967296 = t := Nat.mod_eq_of_lt ht
      rw [Nat.zero_mod, Nat.sub_zero, hm]
      omega
    rw [hts]

/-- C8 as literally stated is false: for the distinct NodeIDs A = 1, B = 0,
normalizing `{threshold 2, validators [A], innerSets [{1, [B], []}]}` yields
validators `[0, 1] = [B, A]` (the reorder pass sorts them), not `[A, B]`. -/
theorem normalize_example_counterexample :
    normalizeQSet none (QSet.mk 2 [1] [QSet.mk 1 [0] []]) =
      QSet.mk 2 [0, 1] [] ∧
    ¬ normalizeQSet none (QSet.mk 2 [1] [QSet.mk 1 [0] []]) =
      QSet.mk 2 [1, 0] [] := by
  constructor
  · decide
  · decide

/-- C8 amended: for distinct NodeIDs A and B with A < B (so that `[A, B]` is
in sorted order), normalizing `{threshold 2, validators [A], innerSets
[{threshold 1, validators [B], innerSets []}]}` with no node to remove
yields `{threshold 2, validators [A, B], innerSets []}` via the
singleton-inner-set collapse, and that result is sane under default checks
(extraChecks false). -/
theorem normalize_example (A B : Nat) (hAB : A < B) :
    normalizeQSet none (QSet.mk 2 [A] [QSet.mk 1 [B] []]) =
      QSet.mk 2 [A, B] [] ∧
    isQuorumSetSane (QSet.mk 2 [A, B] []) false = true := by
  have hle : A ≤ B := Nat.le_of_lt hAB
  have hne : ¬ B = A := fun h => Nat.lt_irrefl A (h ▸ hAB)
  constructor
  · have h1 : normalizeQSetSimplify none (QSet.mk 2 [A] [QSet.mk 1 [B] []]) =
        QSet.mk 2 [A, B] [] := rfl
    show normalizeQuorumSetReorder
      (normalizeQSetSimplify none (QSet.mk 2 [A] [QSet.mk 1 [B] []])) = _
    rw [h1]
    show QSet.mk 2 ([A, B].insertionSort (· ≤ ·))
      ((reorderList []).insertionSort qSetLE) = QSet.mk 2 [A, B] []
    simp [List.insertionSort, List.orderedInsert, hle, reorderList]
  · show (isQuorumSetSaneFull (QSet.mk 2 [A, B] []) false).1 = true
    have hins : insertAll [] [A, B] = some [B, A] := by
      unfold insertAll
      rw [if_neg (by simp)]
      unfold insertAll
      rw [if_neg (by simp [hne])]
      rfl
    have hcs : checkSanity false (QSet.mk 2 [A, B] []) 0 [] 0 =
        .ok ([B, A], 2) := by
      unfold checkSanity
      rw [if_neg (by omega), if_neg (by omega), if_neg (by simp), if_neg (by simp)]
      rw [hins]
      simp [checkSanityList]
    unfold isQuorumSetSaneFull
    rw [hcs]
    norm_num

/-- Witness for C8 at A = 0, B = 1. -/
theorem normalize_example_witness :
    normalizeQSet none (QSet.mk 2 [0] [QSet.mk 1 [1] []]) =
      QSet.mk 2 [0, 1] [] :=
  (normalize_example 0 1 (by decide)).1

/-- Unfolding equation of `qSetCompareInt` at two nodes. -/
theorem qc_step (lt rt : Nat) (lv rv : List Nat) (li ri : List QSet) :
    qSetCompareInt (.mk lt lv li) (.mk rt rv ri) =
      if valsCompare lv rv ≠ 0 then valsCompare lv rv
      else if innerCompare li ri ≠ 0 then innerCompare li ri
      else if lt < rt then -1 else if lt = rt then 0 else 1 := by
  rw [qSetCompareInt]

@[simp] theorem ic_nil : innerCompare [] [] = 0 := by rw [innerCompare]

@[simp] theorem ic_nil_cons (b : QSet) (bs : List QSet) :
    innerCompare [] (b :: bs) = -1 := by rw [innerCompare]

@[simp] theorem ic_cons_nil (a : QSet) (as : List QSet) :
    innerCompare (a :: as) [] = 1 := by rw [innerCompare]

theorem ic_step (a b : QSet) (as bs : List QSet) :
    innerCompare (a :: as) (b :: bs) =
      if qSetCompareInt a b ≠ 0 then qSetCompareInt a b
      else innerCompare as bs := by
  rw [innerCompare]

theorem natCmp_swap (a b : Nat) : natCmp a b = -natCmp b a := by
  unfold natCmp
  split_ifs <;> omega

theorem natCmp_zero_iff (a b : Nat) : natCmp a b = 0 ↔ a = b := by
  unfold natCmp
  split_ifs <;> norm_num <;> omega

theorem natCmp_lt_iff (a b : Nat) : natCmp a b < 0 ↔ a < b := by
  unfold natCmp
  split_ifs <;> norm_num <;> omega

theorem vc_swap (la lb : List Nat) : valsCompare la lb = -valsCompare lb la := by
  induction la generalizing lb with
  | nil => cases lb <;> rfl
  | cons a as ih =>
    cases lb with
    | nil => rfl
    | cons b bs =>
      unfold valsCompare
      simp only []
      by_cases h : natCmp a b = 0
      · have h2 : natCmp b a = 0 := by
          rw [natCmp_swap] at h
          omega
        rw [if_neg (by omega), if_neg (by omega)]
        exact ih bs
      · have h2 : natCmp b a ≠ 0 := by
          rw [natCmp_swap] at h
          omega
        rw [if_pos h, if_pos h2, natCmp_swap]

theorem vc_zero_iff (la lb : List Nat) : valsCompare la lb = 0 ↔ la = lb := by
  induction la generalizing lb with
  | nil =>
    cases lb with
    | nil => simp [valsCompare]
    | cons b bs => simp [valsCompare]
  | cons a as ih =>
    cases lb with
    | nil => simp [valsCompare]
    | cons b bs =>
      unfold valsCompare
      simp only []
      by_cases h : natCmp a b = 0
      · have hab : a = b := (natCmp_zero_iff a b).mp h
        rw [if_neg (by omega)]
        rw [ih bs]
        subst hab
        simp
      · rw [if_pos h]
        constructor
        · intro h0
          exact absurd h0 h
        · intro he
          have : a = b := by
            injection he
          exact absurd ((natCmp_zero_iff a b).mpr this) h

theorem vc_trans_lt (la lb lc : List Nat)
    (h1 : valsCompare la lb < 0) (h2 : valsCompare lb lc < 0) :
    valsCompare la lc < 0 := by
  induction la generalizing lb lc with
  | nil =>
    cases lb with
    | nil => simp [valsCompare] at h1
    | cons b bs =>
      cases lc with
      | nil => simp [valsCompare] at h2
      | cons c cs => simp [valsCompare]
  | cons a as ih =>
    cases lb with
    | nil => simp [valsCompare] at h1
    | cons b bs =>
      cases lc with
      | nil => simp [valsCompare] at h2
      | cons c cs =>
        unfold valsCompare at h1 h2 ⊢
        simp only [] at h1 h2 ⊢
        by_cases hab : natCmp a b = 0
        · have haeb : a = b := (natCmp_zero_iff a b).mp hab
          rw [if_neg (by omega)] at h1
          by_cases hbc : natCmp b c = 0
          · have hbec : b = c := (natCmp_zero_iff b c).mp hbc
            rw [if_neg (by omega)] at h2
            have hac : natCmp a c = 0 := by
              rw [haeb, hbec]
              exact (natCmp_zero_iff c c).mpr rfl
            rw [if_neg (by omega)]
            exact ih bs cs h1 h2
          · rw [if_pos hbc] at h2
            have hac : natCmp a c < 0 := by rw [haeb]; exact h2
            rw [if_pos (by omega)]
            exact hac
        · rw [if_pos hab] at h1
          by_cases hbc : natCmp b c = 0
          · have hbec : b = c := (natCmp_zero_iff b c).mp hbc
            have hac : natCmp a c < 0 := by rw [← hbec]; exact h1
            rw [if_pos (by omega)]
            exact hac
          · rw [if_pos hbc] at h2
            have hac : natCmp a c < 0 := by
              rw [natCmp_lt_iff] at h1 h2 ⊢
              omega
            rw [if_pos (by omega)]
            exact hac

mutual

theorem qc_swap : ∀ (a b : QSet), qSetCompareInt a b = -qSetCompareInt b a
  | .mk lt lv li, .mk rt rv ri => by
    rw [qc_step, qc_step]
    by_cases h1 : valsCompare lv rv = 0
    · have h1' : valsCompare rv lv = 0 := by
        rw [vc_swap rv lv]
        omega
      rw [if_neg (show ¬(valsCompare lv rv ≠ 0) by omega),
        if_neg (show ¬(valsCompare rv lv ≠ 0) by omega)]
      have hswap := ic_swap li ri
      by_cases h2 : innerCompare li ri = 0
      · rw [if_neg (show ¬(innerCompare li ri ≠ 0) by omega),
          if_neg (show ¬(innerCompare ri li ≠ 0) by omega)]
        split_ifs <;> omega
      · rw [if_pos (show innerCompare li ri ≠ 0 from h2),
          if_pos (show innerCompare ri li ≠ 0 by omega)]
        omega
    · have h1' : valsCompare rv lv ≠ 0 := by
        rw [vc_swap rv lv]
        omega
      rw [if_pos h1, if_pos h1']
      rw [vc_swap lv rv]
  termination_by a _ => sizeOf a

theorem ic_swap : ∀ (la lb : List QSet), innerCompare la lb = -innerCompare lb la
  | [], [] => by simp
  | [], _ :: _ => by simp
  | _ :: _, [] => by simp
  | a :: as, b :: bs => by
    rw [ic_step, ic_step]
    have hq := qc_swap a b
    by_cases h : qSetCompareInt a b = 0
    · rw [if_neg (by omega), if_neg (by omega)]
      exact ic_swap as bs
    · rw [if_pos h, if_pos (by omega)]
      omega
  termination_by la _ => sizeOf la

end

theorem qc_refl (a : QSet) : qSetCompareInt a a = 0 := by
  have := qc_swap a a
  omega

theorem ic_refl (l : List QSet) : innerCompare l l = 0 := by
  have := ic_swap l l
  omega

mutual

theorem qc_zero : ∀ (a b : QSet), qSetCompareInt a b = 0 → a = b
  | .mk lt lv li, .mk rt rv ri => fun h => by
    rw [qc_step] at h
    by_cases h1 : valsCompare lv rv = 0
    · rw [if_neg (by omega)] at h
      by_cases h2 : innerCompare li ri = 0
      · rw [if_neg (by omega)] at h
        have hv : lv = rv := (vc_zero_iff lv rv).mp h1
        have hi : li = ri := ic_zero li ri h2
        have ht : lt = rt := by
          split_ifs at h <;> omega
        rw [hv, hi, ht]
      · rw [if_pos h2] at h
        exact absurd h h2
    · rw [if_pos h1] at h
      exact absurd h h1
  termination_by a _ => sizeOf a

theorem ic_zero : ∀ (la lb : List QSet), innerCompare la lb = 0 → la = lb
  | [], [] => fun _ => rfl
  | [], _ :: _ => fun h => by
    rw [ic_nil_cons] at h
    norm_num at h
  | _ :: _, [] => fun h => by
    rw [ic_cons_nil] at h
    norm_num at h
  | a :: as, b :: bs => fun h => by
    rw [ic_step] at h
    by_cases h1 : qSetCompareInt a b = 0
    · rw [if_neg (by omega)] at h
      rw [qc_zero a b h1, ic_zero as bs h]
    · rw [if_pos h1] at h
      exact absurd h h1
  termination_by la _ => sizeOf la

end

mutual

theorem qc_trans_lt : ∀ (a b c : QSet), qSetCompareInt a b < 0 →
    qSetCompareInt b c < 0 → qSetCompareInt a c < 0
  | .mk ta va ia, .mk tb vb ib, .mk tc vc2 ic2 => fun h1 h2 => by
    rw [qc_step] at h1 h2 ⊢
    by_cases hab : valsCompare va vb = 0
    · have hvab : va = vb := (vc_zero_iff _ _).mp hab
      rw [if_neg (by omega)] at h1
      by_cases hbc : valsCompare vb vc2 = 0
      · have hvbc : vb = vc2 := (vc_zero_iff _ _).mp hbc
        have hac : valsCompare va vc2 = 0 := by
          rw [hvab, hvbc]
          exact (vc_zero_iff _ _).mpr rfl
        rw [if_neg (by omega)] at h2 ⊢
        by_cases hiab : innerCompare ia ib = 0
        · have hieq : ia = ib := ic_zero _ _ hiab
          rw [if_neg (by omega)] at h1
          by_cases hibc : innerCompare ib ic2 = 0
          · have hieq2 : ib = ic2 := ic_zero _ _ hibc
            have hiac : innerCompare ia ic2 = 0 := by
              rw [hieq, hieq2]
              exact ic_refl ic2
            rw [if_neg (by omega)] at h2 ⊢
            split_ifs at h1 h2 ⊢ <;> omega
          · rw [if_pos hibc] at h2
            have hiac : innerCompare ia ic2 < 0 := by
              rw [hieq]
              exact h2
            rw [if_pos (by omega)]
            exact hiac
        · rw [if_pos hiab] at h1
          by_cases hibc : innerCompare ib ic2 = 0
          · have hieq2 : ib = ic2 := ic_zero _ _ hibc
            have hiac : innerCompare ia ic2 < 0 := by
              rw [← hieq2]
              exact h1
            rw [if_pos (by omega)]
            exact hiac
          · rw [if_pos hibc] at h2
            have hiac := ic_trans_lt ia ib ic2 h1 h2
            rw [if_pos (by omega)]
            exact hiac
      · rw [if_pos hbc] at h2
        have hac : valsCompare va vc2 < 0 := by
          rw [hvab]
          exact h2
        rw [if_pos (by omega)]
        exact hac
    · rw [if_pos hab] at h1
      by_cases hbc : valsCompare vb vc2 = 0
      · have hvbc : vb = vc2 := (vc_zero_iff _ _).mp hbc
        have hac : valsCompare va vc2 < 0 := by
          rw [← hvbc]
          exact h1
        rw [if_pos (by omega)]
        exact hac
      · rw [if_pos hbc] at h2
        have hac := vc_trans_lt va vb vc2 h1 h2
        rw [if_pos (by omega)]
        exact hac
  termination_by a _ _ => sizeOf a

theorem ic_trans_lt : ∀ (la lb lc : List QSet), innerCompare la lb < 0 →
    innerCompare lb lc < 0 → innerCompare la lc < 0
  | [], [], _ => fun h1 _ => by
    rw [ic_nil] at h1
    norm_num at h1
  | [], _ :: _, [] => fun _ h2 => by
    rw [ic_cons_nil] at h2
    norm_num at h2
  | [], _ :: _, _ :: _ => fun _ _ => by
    rw [ic_nil_cons]
    norm_num
  | _ :: _, [], _ => fun h1 _ => by
    rw [ic_cons_nil] at h1
    norm_num at h1
  | _ :: _, _ :: _, [] => fun _ h2 => by
    rw [ic_cons_nil] at h2
    norm_num at h2
  | a :: as, b :: bs, c :: cs => fun h1 h2 => by
    rw [ic_step] at h1 h2 ⊢
    by_cases hab : qSetCompareInt a b = 0
    · have heq : a = b := qc_zero a b hab
      rw [if_neg (by omega)] at h1
      by_cases hbc : qSetCompareInt b c = 0
      · have heq2 : b = c := qc_zero b c hbc
        have hz : qSetCompareInt a c = 0 := by
          rw [heq, heq2]
          exact qc_refl c
        rw [if_neg (by omega)] at h2 ⊢
        exact ic_trans_lt as bs cs h1 h2
      · rw [if_pos hbc] at h2
        have hlt : qSetCompareInt a c < 0 := by
          rw [heq]
          exact h2
        rw [if_pos (by omega)]
        exact hlt
    · rw [if_pos hab] at h1
      by_cases hbc : qSetCompareInt b c = 0
      · have heq2 : b = c := qc_zero b c hbc
        have hlt : qSetCompareInt a c < 0 := by
          rw [← heq2]
          exact h1
        rw [if_pos (by omega)]
        exact hlt
      · rw [if_pos hbc] at h2
        have hlt := qc_trans_lt a b c h1 h2
        rw [if_pos (by omega)]
        exact hlt
  termination_by la _ _ => sizeOf la

end

theorem qSetLE_total (a b : QSet) : qSetLE a b ∨ qSetLE b a := by
  unfold qSetLE
  have := qc_swap a b
  omega

theorem qSetLE_trans (a b c : QSet) (h1 : qSetLE a b) (h2 : qSetLE b c) :
    qSetLE a c := by
  unfold qSetLE at h1 h2 ⊢
  by_cases hz1 : qSetCompareInt a b = 0
  · rw [qc_zero a b hz1]
    exact h2
  · by_cases hz2 : qSetCompareInt b c = 0
    · rw [← qc_zero b c hz2]
      exact h1
    · have := qc_trans_lt a b c (by omega) (by omega)
      omega

theorem qSetLE_antisymm (a b : QSet) (h1 : qSetLE a b) (h2 : qSetLE b a) :
    a = b := by
  have hs := qc_swap a b
  unfold qSetLE at h1 h2
  exact qc_zero a b (by omega)

instance : IsTotal QSet qSetLE := ⟨qSetLE_total⟩

instance : IsTrans QSet qSetLE := ⟨qSetLE_trans⟩

instance : IsAntisymm QSet qSetLE := ⟨qSetLE_antisymm⟩

/-- Sorting is invariant under permutation of the input, for a total,
transitive and antisymmetric relation. -/
theorem sort_eq_of_perm {α : Type} (r : α → α → Prop) [DecidableRel r]
    [IsTotal α r] [IsTrans α r] [IsAntisymm α r] {l1 l2 : List α}
    (h : l1.Perm l2) : l1.insertionSort r = l2.insertionSort r :=
  List.eq_of_perm_of_sorted
    ((List.perm_insertionSort r l1).trans (h.trans (List.perm_insertionSort r l2).symm))
    (List.sorted_insertionSort r l1) (List.sorted_insertionSort r l2)

/-- Sorting a sorted list is the identity. -/
theorem sort_idem {α : Type} (r : α → α → Prop) [DecidableRel r]
    [IsTotal α r] [IsTrans α r] (l : List α) :
    (l.insertionSort r).insertionSort r = l.insertionSort r :=
  List.Sorted.insertionSort_eq (List.sorted_insertionSort r l)

/-- Mapping a function that fixes every member is the identity. -/
theorem map_self_of_mem {α : Type} {f : α → α} {l : List α}
    (h : ∀ a ∈ l, f a = a) : l.map f = l :=
  (List.map_congr_left h).trans (List.map_id l)

/-- Unfolding equation of the simplify pass at one node. -/
theorem simplify_step (x : Option Nat) (t : Nat) (v : List Nat) (i : List QSet) :
    normalizeQSetSimplify x (.mk t v i) =
      (let q1 := removeStep x (.mk t v i)
       let sims := simplifyList x i
       let merged := sims.filterMap msVal
       let keep := sims.filter (fun s => !(isMS s))
       let v2 := q1.validators ++ merged
       if q1.threshold = 1 ∧ v2 = [] ∧ keep.length = 1 then keep.headD q1
       else .mk q1.threshold v2 keep) := by
  rw [normalizeQSetSimplify]

theorem simplifyList_eq_map (x : Option Nat) (l : List QSet) :
    simplifyList x l = l.map (normalizeQSetSimplify x) := by
  induction l with
  | nil => rw [simplifyList]; rfl
  | cons s rest ih => rw [simplifyList, ih]; rfl

/-- Unfolding equation of the reorder pass at one node. -/
theorem reorder_step (t : Nat) (v : List Nat) (i : List QSet) :
    normalizeQuorumSetReorder (.mk t v i) =
      QSet.mk t (v.insertionSort (· ≤ ·)) ((reorderList i).insertionSort qSetLE) := by
  rw [normalizeQuorumSetReorder]

theorem reorderList_eq_map (l : List QSet) :
    reorderList l = l.map normalizeQuorumSetReorder := by
  induction l with
  | nil => rw [reorderList]; rfl
  | cons s rest ih => rw [reorderList, ih]; rfl

theorem reorder_threshold (q : QSet) :
    (normalizeQuorumSetReorder q).threshold = q.threshold := by
  obtain ⟨t, v, i⟩ := q
  rw [reorder_step]
  rfl

theorem reorder_validators_length (q : QSet) :
    (normalizeQuorumSetReorder q).validators.length = q.validators.length := by
  obtain ⟨t, v, i⟩ := q
  rw [reorder_step]
  simp [List.length_insertionSort]

theorem reorder_innerSets_length (q : QSet) :
    (normalizeQuorumSetReorder q).innerSets.length = q.innerSets.length := by
  obtain ⟨t, v, i⟩ := q
  rw [reorder_step]
  simp [List.length_insertionSort, reorderList_eq_map]

theorem isMS_reorder (q : QSet) : isMS (normalizeQuorumSetReorder q) = isMS q := by
  unfold isMS
  rw [reorder_threshold, reorder_validators_length]
  have h := reorder_innerSets_length q
  rcases hq : q.innerSets with _ | ⟨s, rest⟩ <;>
    rcases hr : (normalizeQuorumSetReorder q).innerSets with _ | ⟨s', rest'⟩ <;>
      simp_all [List.isEmpty_iff]

theorem collapsibleB_reorder (q : QSet) :
    collapsibleB (normalizeQuorumSetReorder q) = collapsibleB q := by
  unfold collapsibleB
  rw [reorder_threshold, reorder_innerSets_length]
  have h := reorder_validators_length q
  rcases hq : q.validators with _ | ⟨s, rest⟩ <;>
    rcases hr : (normalizeQuorumSetReorder q).validators with _ | ⟨s', rest'⟩ <;>
      simp_all [List.isEmpty_iff]

/-- `nfList` holds exactly when it holds of every member. -/
theorem nfList_iff_mem (l : List QSet) :
    nfList l = true ↔
      ∀ s ∈ l, isMS s = false ∧ collapsibleB s = false ∧ nfNode s = true := by
  induction l with
  | nil =>
    rw [nfList]
    simp
  | cons s rest ih =>
    rw [nfList]
    simp only [Bool.and_eq_true, Bool.not_eq_true', ih, List.mem_cons]
    constructor
    · rintro ⟨⟨⟨h1, h2⟩, h3⟩, h4⟩ a ha
      rcases ha with rfl | ha
      · exact ⟨h1, h2, h3⟩
      · exact h4 a ha
    · intro h
      obtain ⟨h1, h2, h3⟩ := h s (Or.inl rfl)
      exact ⟨⟨⟨h1, h2⟩, h3⟩, fun a ha => h a (Or.inr ha)⟩

theorem nfNode_mk (t : Nat) (v : List Nat) (i : List QSet) :
    nfNode (.mk t v i) = nfList i := by
  rw [nfNode]

/-- Zeta-reduced unfolding of the simplify pass at one node. -/
theorem simplify_eq (x : Option Nat) (t : Nat) (v : List Nat) (i : List QSet) :
    normalizeQSetSimplify x (.mk t v i) =
      (if (removeStep x (.mk t v i)).threshold = 1 ∧
          (removeStep x (.mk t v i)).validators ++
            (simplifyList x i).filterMap msVal = [] ∧
          ((simplifyList x i).filter (fun s => !(isMS s))).length = 1
       then ((simplifyList x i).filter (fun s => !(isMS s))).headD
         (removeStep x (.mk t v i))
       else .mk (removeStep x (.mk t v i)).threshold
         ((removeStep x (.mk t v i)).validators ++ (simplifyList x i).filterMap msVal)
         ((simplifyList x i).filter (fun s => !(isMS s)))) := by
  rw [simplify_step]

/-- A non-merge-singleton has no merged validator. -/
theorem msVal_eq_none (s : QSet) (h : isMS s = false) : msVal s = none := by
  obtain ⟨t, v, i⟩ := s
  unfold msVal
  split
  · rename_i heq
    rw [show QSet.mk t v i = QSet.mk 1 _ [] from heq] at h
    simp [isMS] at h
  · rfl

/-- A merge singleton is exactly a node `{1, [n], []}`. -/
theorem isMS_iff (s : QSet) : isMS s = true ↔ ∃ n, s = QSet.mk 1 [n] [] := by
  obtain ⟨t, v, i⟩ := s
  simp only [isMS, QSet.threshold_mk, QSet.validators_mk, QSet.innerSets_mk,
    Bool.and_eq_true, beq_iff_eq, List.isEmpty_iff, List.length_eq_one]
  constructor
  · rintro ⟨⟨rfl, n, rfl⟩, rfl⟩
    exact ⟨n, rfl⟩
  · rintro ⟨n, heq⟩
    cases heq
    exact ⟨⟨rfl, n, rfl⟩, rfl⟩

/-- The simplify pass establishes the normal-form invariant. -/
theorem simplify_nf (x : Option Nat) :
    ∀ q, simplifiedNF (normalizeQSetSimplify x q) = true := by
  refine @qsetInd (fun q => simplifiedNF (normalizeQSetSimplify x q) = true)
    (fun l => ∀ s ∈ l, simplifiedNF (normalizeQSetSimplify x s) = true)
    ?_ ?_ ?_
  · intro t v i hi
    rw [simplify_eq]
    split_ifs with hc
    · obtain ⟨k, hk⟩ := List.length_eq_one.mp hc.2.2
      rw [hk, List.headD_cons]
      have hkmem : k ∈ (simplifyList x i).filter (fun s => !(isMS s)) := by
        rw [hk]
        exact List.mem_cons_self k []
      have hk2 : k ∈ simplifyList x i := (List.mem_filter.mp hkmem).1
      rw [simplifyList_eq_map] at hk2
      obtain ⟨s, hs, rfl⟩ := List.mem_map.mp hk2
      exact hi s hs
    · unfold simplifiedNF
      rw [Bool.and_eq_true, Bool.not_eq_true', nfNode_mk]
      constructor
      · by_contra hb
        rw [Bool.not_eq_false] at hb
        unfold collapsibleB at hb
        simp only [QSet.threshold_mk, QSet.validators_mk, QSet.innerSets_mk,
          Bool.and_eq_true, beq_iff_eq, List.isEmpty_iff] at hb
        exact hc ⟨hb.1.1, hb.1.2, hb.2⟩
      · rw [nfList_iff_mem]
        intro k hkmem
        have hms : isMS k = false := by
          have := (List.mem_filter.mp hkmem).2
          simpa using this
        have hk2 : k ∈ simplifyList x i := (List.mem_filter.mp hkmem).1
        rw [simplifyList_eq_map] at hk2
        obtain ⟨s, hs, rfl⟩ := List.mem_map.mp hk2
        have hsnf := hi s hs
        unfold simplifiedNF at hsnf
        rw [Bool.and_eq_true, Bool.not_eq_true'] at hsnf
        exact ⟨hms, hsnf.1, hsnf.2⟩
  · intro s hs
    cases hs
  · intro s rest hP hPL a ha
    rcases List.mem_cons.mp ha with rfl | ha
    · exact hP
    · exact hPL a ha

/-- On a tree in normal form the simplify pass (with no node to remove) is
the identity. -/
theorem simplify_id_of_nf :
    ∀ q, simplifiedNF q = true → normalizeQSetSimplify none q = q := by
  refine @qsetInd (fun q => simplifiedNF q = true → normalizeQSetSimplify none q = q)
    (fun l => nfList l = true → simplifyList none l = l) ?_ ?_ ?_
  · intro t v i hi h
    unfold simplifiedNF at h
    rw [Bool.and_eq_true, Bool.not_eq_true', nfNode_mk] at h
    obtain ⟨hcol, hnf⟩ := h
    have hsl : simplifyList none i = i := hi hnf
    have hrs : removeStep none (QSet.mk t v i) = QSet.mk t v i := rfl
    have hmerged : i.filterMap msVal = [] := by
      rw [List.filterMap_eq_nil_iff]
      intro s hs
      exact msVal_eq_none s ((nfList_iff_mem i).mp hnf s hs).1
    have hkeep : i.filter (fun s => !(isMS s)) = i := by
      rw [List.filter_eq_self]
      intro s hs
      rw [((nfList_iff_mem i).mp hnf s hs).1]
      rfl
    rw [simplify_eq, hrs, hsl, hmerged, hkeep]
    rw [if_neg]
    · simp only [QSet.threshold_mk, QSet.validators_mk, QSet.innerSets_mk,
        List.append_nil]
    · unfold collapsibleB at hcol
      simp only [QSet.threshold_mk, QSet.validators_mk, QSet.innerSets_mk,
        List.append_nil] at hcol ⊢
      intro hfalse
      obtain ⟨h1, h2, h3⟩ := hfalse
      rw [h1, h2, h3] at hcol
      simp at hcol
  · intro _
    rw [simplifyList]
  · intro s rest hP hPL h
    rw [nfList] at h
    simp only [Bool.and_eq_true, Bool.not_eq_true'] at h
    have hs : simplifiedNF s = true := by
      unfold simplifiedNF
      rw [Bool.and_eq_true, Bool.not_eq_true']
      exact ⟨h.1.1.2, h.1.2⟩
    rw [simplifyList, hP hs, hPL h.2]

/-- The reorder pass preserves the normal-form invariant below the root. -/
theorem nf_reorder : ∀ q, nfNode q = true → nfNode (normalizeQuorumSetReorder q) = true := by
  refine @qsetInd (fun q => nfNode q = true → nfNode (normalizeQuorumSetReorder q) = true)
    (fun l => ∀ s ∈ l, nfNode s = true → nfNode (normalizeQuorumSetReorder s) = true)
    ?_ ?_ ?_
  · intro t v i hi h
    rw [nfNode_mk] at h
    rw [reorder_step, nfNode_mk, nfList_iff_mem]
    intro s' hs'
    have hs2 : s' ∈ reorderList i := (List.mem_insertionSort qSetLE).mp hs'
    rw [reorderList_eq_map] at hs2
    obtain ⟨s, hs, rfl⟩ := List.mem_map.mp hs2
    obtain ⟨hm, hcb, hnn⟩ := (nfList_iff_mem i).mp h s hs
    refine ⟨?_, ?_, hi s hs hnn⟩
    · rw [isMS_reorder, hm]
    · rw [collapsibleB_reorder, hcb]
  · intro s hs
    cases hs
  · intro s rest hP hPL a ha
    rcases List.mem_cons.mp ha with rfl | ha
    · exact hP
    · exact hPL a ha

/-- The reorder pass preserves the full normal-form invariant. -/
theorem simplifiedNF_reorder (q : QSet) (h : simplifiedNF q = true) :
    simplifiedNF (normalizeQuorumSetReorder q) = true := by
  unfold simplifiedNF at h ⊢
  rw [Bool.and_eq_true, Bool.not_eq_true'] at h ⊢
  exact ⟨by rw [collapsibleB_reorder, h.1], nf_reorder q h.2⟩

/-- The reorder pass is idempotent. -/
theorem reorder_idem : ∀ q, normalizeQuorumSetReorder (normalizeQuorumSetReorder q) =
    normalizeQuorumSetReorder q := by
  refine @qsetInd
    (fun q => normalizeQuorumSetReorder (normalizeQuorumSetReorder q) =
      normalizeQuorumSetReorder q)
    (fun l => ∀ s ∈ l, normalizeQuorumSetReorder (normalizeQuorumSetReorder s) =
      normalizeQuorumSetReorder s) ?_ ?_ ?_
  · intro t v i hi
    rw [reorder_step, reorder_step]
    have hv : (v.insertionSort (· ≤ ·)).insertionSort (· ≤ ·) =
        v.insertionSort (· ≤ ·) := sort_idem _ v
    have hfix : ∀ s' ∈ (reorderList i).insertionSort qSetLE,
        normalizeQuorumSetReorder s' = s' := by
      intro s' hs'
      have hs2 : s' ∈ reorderList i := (List.mem_insertionSort qSetLE).mp hs'
      rw [reorderList_eq_map] at hs2
      obtain ⟨s, hs, rfl⟩ := List.mem_map.mp hs2
      exact hi s hs
    have hmap : reorderList ((reorderList i).insertionSort qSetLE) =
        (reorderList i).insertionSort qSetLE := by
      rw [reorderList_eq_map]
      exact map_self_of_mem hfix
    rw [hv, hmap]
    rw [List.Sorted.insertionSort_eq (List.sorted_insertionSort qSetLE (reorderList i))]
  · intro s hs
    cases hs
  · intro s rest hP hPL a ha
    rcases List.mem_cons.mp ha with rfl | ha
    · exact hP
    · exact hPL a ha

/-- C10: after `normalizeQSet` with no node to remove, every node of the
resulting tree has no inner set that is a merge singleton (threshold 1, one
validator, no inner sets) and no non-root node is collapsible (threshold 1,
no validators, exactly one inner set); consequently a second simplify pass
is the identity on the result. -/
theorem normalize_normal_form (q : QSet) :
    nfNode (normalizeQSet none q) = true ∧
    normalizeQSetSimplify none (normalizeQSet none q) = normalizeQSet none q := by
  have h1 := simplify_nf none q
  have h2 := simplifiedNF_reorder _ h1
  constructor
  · unfold simplifiedNF at h2
    rw [Bool.and_eq_true] at h2
    exact h2.2
  · exact simplify_id_of_nf _ h2

/-- C2: for every sane quorum set, `normalizeQSet` with no node to remove is
idempotent (in fact this holds for every quorum set). -/
theorem normalize_idempotent (q : QSet) (h : isQuorumSetSane q false = true) :
    normalizeQSet none (normalizeQSet none q) = normalizeQSet none q := by
  unfold normalizeQSet
  have h1 := simplify_nf none q
  have h2 := simplifiedNF_reorder _ h1
  rw [simplify_id_of_nf _ h2]
  exact reorder_idem _

/-- Witness for C2 on a concrete sane quorum set. -/
theorem normalize_idempotent_witness :
    normalizeQSet none (normalizeQSet none (QSet.mk 2 [5, 3] [QSet.mk 1 [9] []])) =
      normalizeQSet none (QSet.mk 2 [5, 3] [QSet.mk 1 [9] []]) :=
  normalize_idempotent (QSet.mk 2 [5, 3] [QSet.mk 1 [9] []]) (by decide)

theorem qperm_isMS {a b : QSet} (h : QPerm a b) : isMS a = isMS b := by
  cases h with
  | mk hv hf hj =>
    rename_i t v v' i i' j
    have hlen : i.length = i'.length := hf.length_eq.trans hj.length_eq
    have hemp : i.isEmpty = i'.isEmpty := by
      rcases i with _ | ⟨s, rest⟩ <;> rcases i' with _ | ⟨s', rest'⟩ <;> simp_all
    unfold isMS
    simp only [QSet.threshold_mk, QSet.validators_mk, QSet.innerSets_mk]
    rw [hv.length_eq, hemp]

theorem qperm_msVal {a b : QSet} (h : QPerm a b) : msVal a = msVal b := by
  by_cases hms : isMS a = true
  · obtain ⟨n, rfl⟩ := (isMS_iff a).mp hms
    cases h with
    | mk hv hf hj =>
      rename_i v' i' j
      have hv' : v' = [n] := List.singleton_perm.mp hv |>.symm
      cases hf
      have hi' : i' = [] := hj.symm.eq_nil
      subst hv' hi'
      rfl
  · have hmsb : isMS b = false := by
      rw [← qperm_isMS h]
      exact Bool.not_eq_true _ ▸ (by simpa using hms)
    rw [msVal_eq_none a (by simpa using hms), msVal_eq_none b hmsb]

theorem f2_filterMap_msVal {l1 l2 : List QSet} (h : List.Forall₂ QPerm l1 l2) :
    l1.filterMap msVal = l2.filterMap msVal := by
  induction h with
  | nil => rfl
  | cons hab hrest ih =>
    rw [List.filterMap_cons, List.filterMap_cons, qperm_msVal hab]
    cases msVal _ with
    | none => exact ih
    | some n => rw [ih]

theorem f2_filter_isMS {l1 l2 : List QSet} (h : List.Forall₂ QPerm l1 l2) :
    List.Forall₂ QPerm (l1.filter (fun s => !(isMS s)))
      (l2.filter (fun s => !(isMS s))) := by
  induction h with
  | nil => exact List.Forall₂.nil
  | cons hab hrest ih =>
    rw [List.filter_cons, List.filter_cons, qperm_isMS hab]
    cases isMS _ with
    | false => exact List.Forall₂.cons hab ih
    | true => exact ih

theorem qperm_removeStep (x : Option Nat) {ta : Nat} {va vb : List Nat}
    {ia ib : List QSet} (hv : va.Perm vb) :
    (removeStep x (.mk ta va ia)).threshold = (removeStep x (.mk ta vb ib)).threshold ∧
    ((removeStep x (.mk ta va ia)).validators).Perm
      ((removeStep x (.mk ta vb ib)).validators) := by
  cases x with
  | none => exact ⟨rfl, hv⟩
  | some id =>
    constructor
    · show u32sub ta (va.count id) = u32sub ta (vb.count id)
      rw [hv.count_eq id]
    · exact hv.filter _

mutual

theorem qperm_simplify (x : Option Nat) :
    ∀ (a b : QSet), QPerm a b →
      QPerm (normalizeQSetSimplify x a) (normalizeQSetSimplify x b)
  | a, b, h => by
    cases h with
    | mk hv hf hj =>
      rename_i ta va vb ia ib j
      rw [simplify_eq, simplify_eq]
      have hsimsF : List.Forall₂ QPerm (simplifyList x ia) (simplifyList x j) :=
        qpermList_simplify x ia j hf
      have hsimsP : (simplifyList x j).Perm (simplifyList x ib) := by
        rw [simplifyList_eq_map, simplifyList_eq_map]
        exact hj.map _
      have hmergedP : ((simplifyList x ia).filterMap msVal).Perm
          ((simplifyList x ib).filterMap msVal) := by
        rw [f2_filterMap_msVal hsimsF]
        exact hsimsP.filterMap _
      have hkeepF : List.Forall₂ QPerm
          ((simplifyList x ia).filter (fun s => !(isMS s)))
          ((simplifyList x j).filter (fun s => !(isMS s))) := f2_filter_isMS hsimsF
      have hkeepP : ((simplifyList x j).filter (fun s => !(isMS s))).Perm
          ((simplifyList x ib).filter (fun s => !(isMS s))) := hsimsP.filter _
      obtain ⟨hth, hvp⟩ := @qperm_removeStep x ta va vb ia ib hv
      have hv2 : ((removeStep x (.mk ta va ia)).validators ++
          (simplifyList x ia).filterMap msVal).Perm
          ((removeStep x (.mk ta vb ib)).validators ++
           (simplifyList x ib).filterMap msVal) := hvp.append hmergedP
      have hklen : ((simplifyList x ia).filter (fun s => !(isMS s))).length =
          ((simplifyList x ib).filter (fun s => !(isMS s))).length :=
        hkeepF.length_eq.trans hkeepP.length_eq
      by_cases hc : (removeStep x (.mk ta va ia)).threshold = 1 ∧
          (removeStep x (.mk ta va ia)).validators ++
            (simplifyList x ia).filterMap msVal = [] ∧
          ((simplifyList x ia).filter (fun s => !(isMS s))).length = 1
      · have hc' : (removeStep x (.mk ta vb ib)).threshold = 1 ∧
            (removeStep x (.mk ta vb ib)).validators ++
              (simplifyList x ib).filterMap msVal = [] ∧
            ((simplifyList x ib).filter (fun s => !(isMS s))).length = 1 := by
          refine ⟨hth ▸ hc.1, ?_, hklen ▸ hc.2.2⟩
          have := hc.2.1 ▸ hv2
          exact this.symm.eq_nil
        rw [if_pos hc, if_pos hc']
        obtain ⟨kA, hkA⟩ := List.length_eq_one.mp hc.2.2
        obtain ⟨kB, hkB⟩ := List.length_eq_one.mp hc'.2.2
        rw [hkA, hkB, List.headD_cons, List.headD_cons]
        rw [hkA] at hkeepF
        obtain ⟨kJ, u', hab, hnil, hu⟩ := List.forall₂_cons_left_iff.mp hkeepF
        cases hnil
        rw [hu, hkB] at hkeepP
        have heq : [kJ] = [kB] := List.perm_singleton.mp hkeepP
        injection heq with hKJ _
        exact hKJ ▸ hab
      · have hc' : ¬ ((removeStep x (.mk ta vb ib)).threshold = 1 ∧
            (removeStep x (.mk ta vb ib)).validators ++
              (simplifyList x ib).filterMap msVal = [] ∧
            ((simplifyList x ib).filter (fun s => !(isMS s))).length = 1) := by
          intro hcc
          apply hc
          refine ⟨hth.symm ▸ hcc.1, ?_, hklen.symm ▸ hcc.2.2⟩
          have := hcc.2.1 ▸ hv2
          exact this.eq_nil
        rw [if_neg hc, if_neg hc']
        rw [← hth]
        exact QPerm.mk hv2 hkeepF hkeepP
  termination_by a _ _ => sizeOf a

theorem qpermList_simplify (x : Option Nat) :
    ∀ (la lb : List QSet), List.Forall₂ QPerm la lb →
      List.Forall₂ QPerm (simplifyList x la) (simplifyList x lb)
  | [], [], _ => by
    rw [simplifyList]
    exact List.Forall₂.nil
  | a :: as, b :: bs, h => by
    cases h with
    | cons hab hrest =>
      rw [simplifyList, simplifyList]
      exact List.Forall₂.cons (qperm_simplify x a b hab)
        (qpermList_simplify x as bs hrest)
  termination_by la _ _ => sizeOf la

end

mutual

theorem qperm_reorder : ∀ (a b : QSet), QPerm a b →
    normalizeQuorumSetReorder a = normalizeQuorumSetReorder b
  | a, b, h => by
    cases h with
    | mk hv hf hj =>
      rename_i ta va vb ia ib j
      rw [reorder_step, reorder_step]
      have h1 : va.insertionSort (· ≤ ·) = vb.insertionSort (· ≤ ·) :=
        sort_eq_of_perm _ hv
      have h2 : reorderList ia = reorderList j := qpermList_reorder ia j hf
      have h3 : (reorderList j).Perm (reorderList ib) := by
        rw [reorderList_eq_map, reorderList_eq_map]
        exact hj.map _
      have h4 : (reorderList ia).insertionSort qSetLE =
          (reorderList ib).insertionSort qSetLE := by
        rw [h2]
        exact sort_eq_of_perm qSetLE h3
      rw [h1, h4]
  termination_by a _ _ => sizeOf a

theorem qpermList_reorder : ∀ (la lb : List QSet), List.Forall₂ QPerm la lb →
    reorderList la = reorderList lb
  | [], [], _ => rfl
  | a :: as, b :: bs, h => by
    cases h with
    | cons hab hrest =>
      rw [reorderList, reorderList]
      rw [qperm_reorder a b hab, qpermList_reorder as bs hrest]
  termination_by la _ _ => sizeOf la

end

/-- C3: `normalizeQSet` is canonical under reordering — for every quorum set
and every tree obtained from it by permuting the validator lists and the
inner-set lists at any nodes recursively, normalization (with no node to
remove) produces the identical tree. -/
theorem normalize_perm_invariant (q q' : QSet) (h : QPerm q q') :
    normalizeQSet none q = normalizeQSet none q' := by
  unfold normalizeQSet
  exact qperm_reorder _ _ (qperm_simplify none q q' h)

/-- Witness for C3: permuting the validators of the root and of an inner set
and swapping the two inner sets does not change the normalized tree. -/
theorem normalize_perm_invariant_witness :
    normalizeQSet none
        (QSet.mk 2 [1, 2] [QSet.mk 2 [3, 4] [], QSet.mk 2 [5, 6] []]) =
      normalizeQSet none
        (QSet.mk 2 [2, 1] [QSet.mk 2 [6, 5] [], QSet.mk 2 [3, 4] []]) := by
  apply normalize_perm_invariant
  have hf : List.Forall₂ QPerm [QSet.mk 2 [3, 4] [], QSet.mk 2 [5, 6] []]
      [QSet.mk 2 [3, 4] [], QSet.mk 2 [6, 5] []] :=
    List.Forall₂.cons (QPerm.mk (by decide) List.Forall₂.nil (by decide))
      (List.Forall₂.cons (QPerm.mk (by decide) List.Forall₂.nil (by decide))
        List.Forall₂.nil)
  have hj : ([QSet.mk 2 [3, 4] [], QSet.mk 2 [6, 5] []]).Perm
      [QSet.mk 2 [6, 5] [], QSet.mk 2 [3, 4] []] := by decide
  exact QPerm.mk (by decide) hf hj

theorem vals_mk (t : Nat) (v : List Nat) (i : List QSet) :
    vals (.mk t v i) = v ++ valsList i := by
  rw [vals]

theorem valsList_nil : valsList [] = [] := by rw [valsList]

theorem valsList_cons (s : QSet) (rest : List QSet) :
    valsList (s :: rest) = vals s ++ valsList rest := by
  rw [valsList]

theorem specDepthOk_mk (t : Nat) (v : List Nat) (i : List QSet) (d : Nat) :
    specDepthOk (.mk t v i) d = (decide (d ≤ 2) && specDepthOkList i (d + 1)) := by
  rw [specDepthOk]

theorem specDepthOkList_nil (d : Nat) : specDepthOkList [] d = true := by
  rw [specDepthOkList]

theorem specDepthOkList_cons (s : QSet) (rest : List QSet) (d : Nat) :
    specDepthOkList (s :: rest) d = (specDepthOk s d && specDepthOkList rest d) := by
  rw [specDepthOkList]

theorem specThresholdsOk_mk (t : Nat) (v : List Nat) (i : List QSet) :
    specThresholdsOk (.mk t v i) =
      (decide (1 ≤ t) && decide (t ≤ v.length + i.length) && specThresholdsOkList i) := by
  rw [specThresholdsOk]

theorem specThresholdsOkList_nil : specThresholdsOkList [] = true := by
  rw [specThresholdsOkList]

theorem specThresholdsOkList_cons (s : QSet) (rest : List QSet) :
    specThresholdsOkList (s :: rest) =
      (specThresholdsOk s && specThresholdsOkList rest) := by
  rw [specThresholdsOkList]

theorem specExtraOk_mk (t : Nat) (v : List Nat) (i : List QSet) :
    specExtraOk (.mk t v i) =
      (decide (v.length + i.length - t + 1 ≤ t) && specExtraOkList i) := by
  rw [specExtraOk]

theorem specExtraOkList_nil : specExtraOkList [] = true := by
  rw [specExtraOkList]

theorem specExtraOkList_cons (s : QSet) (rest : List QSet) :
    specExtraOkList (s :: rest) = (specExtraOk s && specExtraOkList rest) := by
  rw [specExtraOkList]

theorem specViolations_mk (e : Bool) (t : Nat) (v : List Nat) (i : List QSet)
    (d : Nat) (known : List Nat) :
    specViolations e (.mk t v i) d known =
      ((if d > 2 then [Reason.depthExceeded] else []) ++
       (if t < 1 then [Reason.thresholdTooLow] else []) ++
       (if t > v.length + i.length then [Reason.thresholdExceedsEntries] else []) ++
       (if e && decide (t < v.length + i.length - t + 1)
        then [Reason.extraCheckTooLow] else []) ++
       (specInsert known v).1 ++
       (specViolationsList e i (d + 1) (specInsert known v).2).1,
       (specViolationsList e i (d + 1) (specInsert known v).2).2) := by
  rw [specViolations]

theorem specViolationsList_nil (e : Bool) (d : Nat) (known : List Nat) :
    specViolationsList e [] d known = ([], known) := by
  rw [specViolationsList]

theorem specViolationsList_cons (e : Bool) (s : QSet) (rest : List QSet)
    (d : Nat) (known : List Nat) :
    specViolationsList e (s :: rest) d known =
      ((specViolations e s d known).1 ++
        (specViolationsList e rest d (specViolations e s d known).2).1,
       (specViolationsList e rest d (specViolations e s d known).2).2) := by
  rw [specViolationsList]

/-- `insertAll` succeeds exactly on duplicate-free validator lists disjoint
from the known set, and then prepends the validators in reverse. -/
theorem insertAll_eq (v : List Nat) : ∀ known,
    insertAll known v =
      if v.Nodup ∧ ∀ n ∈ v, n ∉ known then some (v.reverse ++ known) else none := by
  induction v with
  | nil =>
    intro known
    rw [if_pos (by simp)]
    rfl
  | cons n rest ih =>
    intro known
    show (if n ∈ known then none else insertAll (n :: known) rest) = _
    by_cases hk : n ∈ known
    · rw [if_pos hk, if_neg]
      intro hcond
      exact hcond.2 n (List.mem_cons_self n rest) hk
    · rw [if_neg hk, ih (n :: known)]
      by_cases hc : rest.Nodup ∧ ∀ m ∈ rest, m ∉ n :: known
      · rw [if_pos hc, if_pos]
        · rw [List.reverse_cons, List.append_assoc]
          rfl
        · constructor
          · rw [List.nodup_cons]
            refine ⟨fun hn => hc.2 n hn (List.mem_cons_self n known), hc.1⟩
          · intro m hm
            rcases List.mem_cons.mp hm with rfl | hm
            · exact hk
            · intro hmk
              exact hc.2 m hm (List.mem_cons.mpr (Or.inr hmk))
      · rw [if_neg hc, if_neg]
        intro hcond
        apply hc
        constructor
        · exact (List.nodup_cons.mp hcond.1).2
        · intro m hm hmk
          rcases List.mem_cons.mp hmk with rfl | hmk2
          · exact (List.nodup_cons.mp hcond.1).1 hm
          · exact hcond.2 m (List.mem_cons.mpr (Or.inr hm)) hmk2

/-- When `insertAll` succeeds, the spec-side duplicate walk records no
violation and computes the same known set. -/
theorem specInsert_of_insertAll_some (v : List Nat) : ∀ known k,
    insertAll known v = some k → specInsert known v = ([], k) := by
  induction v with
  | nil =>
    intro known k h
    injection h with h
    rw [h]
    rfl
  | cons n rest ih =>
    intro known k h
    show (if n ∈ known then _ else specInsert (n :: known) rest) = ([], k)
    have h2 : (if n ∈ known then none else insertAll (n :: known) rest) = some k := h
    by_cases hk : n ∈ known
    · rw [if_pos hk] at h2
      cases h2
    · rw [if_neg hk] at h2
      rw [if_neg hk]
      exact ih (n :: known) k h2

/-- Every violation recorded by the spec-side duplicate walk is a
duplicate-node violation. -/
theorem specInsert_fst_all_dup (v : List Nat) : ∀ known,
    ∀ r ∈ (specInsert known v).1, r = Reason.duplicateNode := by
  induction v with
  | nil =>
    intro known r hr
    cases hr
  | cons n rest ih =>
    intro known r hr
    rw [show specInsert known (n :: rest) =
        (if n ∈ known then
          ((Reason.duplicateNode :: (specInsert known rest).1, (specInsert known rest).2))
         else specInsert (n :: known) rest) from by rw [specInsert]] at hr
    by_cases hk : n ∈ known
    · rw [if_pos hk] at hr
      rcases List.mem_cons.mp hr with rfl | hr
      · rfl
      · exact ih known r hr
    · rw [if_neg hk] at hr
      exact ih (n :: known) r hr

/-- When `insertAll` fails, the spec-side duplicate walk records at least one
violation. -/
theorem specInsert_fst_ne_nil (v : List Nat) : ∀ known,
    insertAll known v = none → (specInsert known v).1 ≠ [] := by
  induction v with
  | nil =>
    intro known h
    cases h
  | cons n rest ih =>
    intro known h
    have h2 : (if n ∈ known then none else insertAll (n :: known) rest) = none := h
    rw [show specInsert known (n :: rest) =
        (if n ∈ known then
          ((Reason.duplicateNode :: (specInsert known rest).1, (specInsert known rest).2))
         else specInsert (n :: known) rest) from by rw [specInsert]]
    by_cases hk : n ∈ known
    · rw [if_pos hk]
      simp
    · rw [if_neg hk] at h2
      rw [if_neg hk]
      exact ih (n :: known) h2

theorem checkSanity_mk (extra : Bool) (t : Nat) (v : List Nat) (i : List QSet)
    (depth : Nat) (known : List Nat) (cnt : Nat) :
    checkSanity extra (.mk t v i) depth known cnt =
      (if depth > 2 then .error (.depthExceeded, cnt)
       else if t < 1 then .error (.thresholdTooLow, cnt)
       else if t > v.length + i.length then
         .error (.thresholdExceedsEntries, cnt + v.length)
       else if extra && decide (t < v.length + i.length - t + 1) then
         .error (.extraCheckTooLow, cnt + v.length)
       else
         match insertAll known v with
         | none => .error (.duplicateNode, cnt + v.length)
         | some known1 => checkSanityList extra i (depth + 1) known1 (cnt + v.length)) := by
  rw [checkSanity]

theorem checkSanityList_nil (extra : Bool) (depth : Nat) (known : List Nat)
    (cnt : Nat) :
    checkSanityList extra [] depth known cnt = .ok (known, cnt) := by
  rw [checkSanityList]

theorem checkSanityList_cons (extra : Bool) (s : QSet) (rest : List QSet)
    (depth : Nat) (known : List Nat) (cnt : Nat) :
    checkSanityList extra (s :: rest) depth known cnt =
      (match checkSanity extra s depth known cnt with
       | .error e => .error e
       | .ok (known1, cnt1) => checkSanityList extra rest depth known1 cnt1) := by
  rw [checkSanityList]

/-- Success characterization of `checkSanity`: a successful run means every
per-node invariant of the visited subtree holds, the validators are globally
fresh and duplicate-free, the final known set and count are determined, and
the spec-side violation walk finds nothing. -/
theorem checker_ok_char :
    ∀ q : QSet, ∀ extra depth known cnt k c,
      checkSanity extra q depth known cnt = .ok (k, c) →
        k = (vals q).reverse ++ known ∧
        c = cnt + (vals q).length ∧
        specViolations extra q depth known = ([], k) ∧
        specDepthOk q depth = true ∧
        specThresholdsOk q = true ∧
        (extra = true → specExtraOk q = true) ∧
        (vals q).Nodup ∧
        (∀ n ∈ vals q, n ∉ known) := by
  refine @qsetInd
    (fun q => ∀ extra depth known cnt k c,
      checkSanity extra q depth known cnt = .ok (k, c) →
        k = (vals q).reverse ++ known ∧
        c = cnt + (vals q).length ∧
        specViolations extra q depth known = ([], k) ∧
        specDepthOk q depth = true ∧
        specThresholdsOk q = true ∧
        (extra = true → specExtraOk q = true) ∧
        (vals q).Nodup ∧
        (∀ n ∈ vals q, n ∉ known))
    (fun l => ∀ extra depth known cnt k c,
      checkSanityList extra l depth known cnt = .ok (k, c) →
        k = (valsList l).reverse ++ known ∧
        c = cnt + (valsList l).length ∧
        specViolationsList extra l depth known = ([], k) ∧
        specDepthOkList l depth = true ∧
        specThresholdsOkList l = true ∧
        (extra = true → specExtraOkList l = true) ∧
        (valsList l).Nodup ∧
        (∀ n ∈ valsList l, n ∉ known)) ?_ ?_ ?_
  · intro t v i hi extra depth known cnt k c hok
    rw [checkSanity_mk] at hok
    by_cases h1 : depth > 2
    · rw [if_pos h1] at hok
      simp at hok
    rw [if_neg h1] at hok
    by_cases h2 : t < 1
    · rw [if_pos h2] at hok
      simp at hok
    rw [if_neg h2] at hok
    by_cases h3 : t > v.length + i.length
    · rw [if_pos h3] at hok
      simp at hok
    rw [if_neg h3] at hok
    by_cases h4 : (extra && decide (t < v.length + i.length - t + 1)) = true
    · rw [if_pos h4] at hok
      simp at hok
    rw [if_neg h4] at hok
    rcases hins : insertAll known v with _ | known1
    · rw [hins] at hok
      simp at hok
    rw [hins] at hok
    obtain ⟨hk, hc, hviol, hdep, hthr, hex, hnd, hfresh⟩ :=
      hi extra (depth + 1) known1 (cnt + v.length) k c hok
    have hins2 := insertAll_eq v known
    rw [hins] at hins2
    by_cases hcond : v.Nodup ∧ ∀ n ∈ v, n ∉ known
    case neg =>
      rw [if_neg hcond] at hins2
      cases hins2
    rw [if_pos hcond] at hins2
    injection hins2 with hkn1
    subst hkn1
    have hvfresh : ∀ n ∈ valsList i, n ∉ v ∧ n ∉ known := by
      intro n hn
      have := hfresh n hn
      rw [List.mem_append, List.mem_reverse] at this
      push_neg at this
      exact this
    refine ⟨?_, ?_, ?_, ?_, ?_, ?_, ?_, ?_⟩
    · rw [hk, vals_mk, List.reverse_append, List.append_assoc]
    · rw [hc, vals_mk, List.length_append]
      omega
    · rw [specViolations_mk, if_neg h1, if_neg h2, if_neg h3, if_neg h4,
        specInsert_of_insertAll_some v known _ hins]
      simp only [List.append_nil, List.nil_append]
      rw [hviol]
    · rw [specDepthOk_mk]
      simp only [Bool.and_eq_true, decide_eq_true_eq]
      exact ⟨by omega, hdep⟩
    · rw [specThresholdsOk_mk]
      simp only [Bool.and_eq_true, decide_eq_true_eq]
      exact ⟨⟨by omega, by omega⟩, hthr⟩
    · intro hx
      rw [specExtraOk_mk]
      simp only [Bool.and_eq_true, decide_eq_true_eq]
      refine ⟨?_, hex hx⟩
      by_contra hlt
      apply h4
      rw [hx]
      simp only [Bool.true_and, decide_eq_true_eq]
      omega
    · rw [vals_mk]
      refine List.Nodup.append hcond.1 hnd ?_
      intro a hav havl
      exact (hvfresh a havl).1 hav
    · rw [vals_mk]
      intro n hn
      rcases List.mem_append.mp hn with hn | hn
      · exact hcond.2 n hn
      · exact (hvfresh n hn).2
  · intro extra depth known cnt k c hok
    rw [checkSanityList_nil] at hok
    injection hok with hok
    injection hok with hok1 hok2
    subst hok1
    subst hok2
    refine ⟨by rw [valsList_nil]; rfl, by rw [valsList_nil]; rfl,
      by rw [specViolationsList_nil], by rw [specDepthOkList_nil],
      by rw [specThresholdsOkList_nil], fun _ => by rw [specExtraOkList_nil],
      by rw [valsList_nil]; exact List.nodup_nil, ?_⟩
    intro n hn
    rw [valsList_nil] at hn
    cases hn
  · intro s rest hP hPL extra depth known cnt k c hok
    rw [checkSanityList_cons] at hok
    rcases hs : checkSanity extra s depth known cnt with e | ⟨known1, cnt1⟩
    · rw [hs] at hok
      simp at hok
    rw [hs] at hok
    obtain ⟨hk1, hc1, hviol1, hdep1, hthr1, hex1, hnd1, hfresh1⟩ :=
      hP extra depth known cnt known1 cnt1 hs
    obtain ⟨hk, hc, hviol, hdep, hthr, hex, hnd, hfresh⟩ :=
      hPL extra depth known1 cnt1 k c hok
    subst hk1
    subst hc1
    have hrfresh : ∀ n ∈ valsList rest, n ∉ vals s ∧ n ∉ known := by
      intro n hn
      have := hfresh n hn
      rw [List.mem_append, List.mem_reverse] at this
      push_neg at this
      exact this
    refine ⟨?_, ?_, ?_, ?_, ?_, ?_, ?_, ?_⟩
    · rw [hk, valsList_cons, List.reverse_append, List.append_assoc]
    · rw [hc, valsList_cons, List.length_append]
      omega
    · rw [specViolationsList_cons, hviol1]
      simp only [List.nil_append]
      rw [hviol]
    · rw [specDepthOkList_cons, hdep1, hdep]
      rfl
    · rw [specThresholdsOkList_cons, hthr1, hthr]
      rfl
    · intro hx
      rw [specExtraOkList_cons, hex1 hx, hex hx]
      rfl
    · rw [valsList_cons]
      refine List.Nodup.append hnd1 hnd ?_
      intro a hav havl
      exact (hrfresh a havl).1 hav
    · rw [valsList_cons]
      intro n hn
      rcases List.mem_append.mp hn with hn | hn
      · exact hfresh1 n hn
      · exact (hrfresh n hn).2

/-- Completeness of `checkSanity`: when every invariant of the subtree holds
and its validators are fresh, the traversal succeeds with the determined
known set and count. -/
theorem checker_ok_complete :
    ∀ q : QSet, ∀ extra depth known cnt,
      specDepthOk q depth = true →
      specThresholdsOk q = true →
      (extra = true → specExtraOk q = true) →
      (vals q).Nodup →
      (∀ n ∈ vals q, n ∉ known) →
      checkSanity extra q depth known cnt =
        .ok ((vals q).reverse ++ known, cnt + (vals q).length) := by
  refine @qsetInd
    (fun q => ∀ extra depth known cnt,
      specDepthOk q depth = true →
      specThresholdsOk q = true →
      (extra = true → specExtraOk q = true) →
      (vals q).Nodup →
      (∀ n ∈ vals q, n ∉ known) →
      checkSanity extra q depth known cnt =
        .ok ((vals q).reverse ++ known, cnt + (vals q).length))
    (fun l => ∀ extra depth known cnt,
      specDepthOkList l depth = true →
      specThresholdsOkList l = true →
      (extra = true → specExtraOkList l = true) →
      (valsList l).Nodup →
      (∀ n ∈ valsList l, n ∉ known) →
      checkSanityList extra l depth known cnt =
        .ok ((valsList l).reverse ++ known, cnt + (valsList l).length)) ?_ ?_ ?_
  · intro t v i hi extra depth known cnt hdep hthr hex hnd hfresh
    rw [specDepthOk_mk] at hdep
    rw [specThresholdsOk_mk] at hthr
    simp only [Bool.and_eq_true, decide_eq_true_eq] at hdep hthr
    rw [vals_mk] at hnd hfresh
    have hndv : v.Nodup := (List.nodup_append.mp hnd).1
    have hndl : (valsList i).Nodup := (List.nodup_append.mp hnd).2.1
    have hdisj := (List.nodup_append.mp hnd).2.2
    rw [checkSanity_mk]
    rw [if_neg (by omega), if_neg (by omega), if_neg (by omega)]
    have h4 : (extra && decide (t < v.length + i.length - t + 1)) = false := by
      cases hxe : extra with
      | false => rfl
      | true =>
        have hxt := hex hxe
        rw [specExtraOk_mk] at hxt
        simp only [Bool.and_eq_true, decide_eq_true_eq] at hxt
        simp only [Bool.true_and, decide_eq_false_iff_not]
        omega
    rw [if_neg (by rw [h4]; simp)]
    have hins : insertAll known v = some (v.reverse ++ known) := by
      rw [insertAll_eq, if_pos]
      constructor
      · exact hndv
      · intro n hn
        exact hfresh n (List.mem_append.mpr (Or.inl hn))
    rw [hins]
    have hexl : extra = true → specExtraOkList i = true := by
      intro hx
      have hxt := hex hx
      rw [specExtraOk_mk] at hxt
      simp only [Bool.and_eq_true] at hxt
      exact hxt.2
    have hfreshl : ∀ n ∈ valsList i, n ∉ v.reverse ++ known := by
      intro n hn
      rw [List.mem_append, List.mem_reverse]
      push_neg
      constructor
      · intro hv
        exact (hdisj hv) hn
      · exact hfresh n (List.mem_append.mpr (Or.inr hn))
    have hlist := hi extra (depth + 1) (v.reverse ++ known) (cnt + v.length)
      hdep.2 hthr.2 hexl hndl hfreshl
    show checkSanityList extra i (depth + 1) (v.reverse ++ known) (cnt + v.length) =
      .ok ((vals (QSet.mk t v i)).reverse ++ known,
        cnt + (vals (QSet.mk t v i)).length)
    rw [vals_mk, List.reverse_append, List.append_assoc, List.length_append,
      ← Nat.add_assoc]
    exact hlist
  · intro extra depth known cnt _ _ _ _ _
    rw [checkSanityList_nil, valsList_nil]
    rfl
  · intro s rest hP hPL extra depth known cnt hdep hthr hex hnd hfresh
    rw [specDepthOkList_cons] at hdep
    rw [specThresholdsOkList_cons] at hthr
    simp only [Bool.and_eq_true] at hdep hthr
    rw [valsList_cons] at hnd hfresh
    have hnds : (vals s).Nodup := (List.nodup_append.mp hnd).1
    have hndr : (valsList rest).Nodup := (List.nodup_append.mp hnd).2.1
    have hdisj := (List.nodup_append.mp hnd).2.2
    have hexs : extra = true → specExtraOk s = true := by
      intro hx
      have := hex hx
      rw [specExtraOkList_cons] at this
      simp only [Bool.and_eq_true] at this
      exact this.1
    have hexr : extra = true → specExtraOkList rest = true := by
      intro hx
      have := hex hx
      rw [specExtraOkList_cons] at this
      simp only [Bool.and_eq_true] at this
      exact this.2
    rw [checkSanityList_cons]
    rw [hP extra depth known cnt hdep.1 hthr.1 hexs hnds
      (fun n hn => hfresh n (List.mem_append.mpr (Or.inl hn)))]
    have hfreshr : ∀ n ∈ valsList rest, n ∉ (vals s).reverse ++ known := by
      intro n hn
      rw [List.mem_append, List.mem_reverse]
      push_neg
      constructor
      · intro hv
        exact (hdisj hv) hn
      · exact hfresh n (List.mem_append.mpr (Or.inr hn))
    have hlist := hPL extra depth ((vals s).reverse ++ known)
      (cnt + (vals s).length) hdep.2 hthr.2 hexr hndr hfreshr
    show checkSanityList extra rest depth ((vals s).reverse ++ known)
        (cnt + (vals s).length) =
      .ok ((valsList (s :: rest)).reverse ++ known,
        cnt + (valsList (s :: rest)).length)
    rw [valsList_cons, List.reverse_append, List.append_assoc,
      List.length_append, ← Nat.add_assoc]
    exact hlist

/-- C1: `isQuorumSetSane(Q, extraChecks)` returns true iff every node sits at
depth ≤ 2, every node has `1 ≤ threshold ≤ |validators| + |innerSets|`, no
node identifier occurs twice anywhere in the tree, the total number of
validator leaves is between 1 and 1000, and (when extraChecks is set) every
node satisfies `threshold ≥ |validators| + |innerSets| − threshold + 1`. -/
theorem isQuorumSetSane_iff (q : QSet) (extra : Bool) :
    isQuorumSetSane q extra = true ↔
      (specDepthOk q 0 = true ∧ specThresholdsOk q = true ∧
       (vals q).Nodup ∧ 1 ≤ (vals q).length ∧ (vals q).length ≤ 1000 ∧
       (extra = true → specExtraOk q = true)) := by
  unfold isQuorumSetSane isQuorumSetSaneFull
  constructor
  · intro h
    rcases hcs : checkSanity extra q 0 [] 0 with ⟨r, cnt⟩ | ⟨k, cnt⟩
    · rw [hcs] at h
      dsimp only at h
      split_ifs at h
    · rw [hcs] at h
      dsimp only at h
      obtain ⟨hk, hc, _, hdep, hthr, hex, hnd, _⟩ :=
        checker_ok_char q extra 0 [] 0 k cnt hcs
      split_ifs at h with hlt hgt
      rw [hc] at hlt hgt
      exact ⟨hdep, hthr, hnd, by omega, by omega, hex⟩
  · rintro ⟨hdep, hthr, hnd, hl1, hl2, hex⟩
    have hok := checker_ok_complete q extra 0 [] 0 hdep hthr hex hnd
      (fun n _ hn => by cases hn)
    rw [hok]
    show (if 0 + (vals q).length < 1 then (false, some Reason.countZero)
      else if 0 + (vals q).length > 1000 then (false, some Reason.countExceedsLimit)
      else (true, none)).1 = true
    rw [if_neg (by omega), if_neg (by omega)]

/-- Witness for C1 on a concrete sane quorum set. -/
theorem isQuorumSetSane_iff_witness :
    isQuorumSetSane (QSet.mk 2 [4, 7] [QSet.mk 1 [9] []]) false = true :=
  (isQuorumSetSane_iff (QSet.mk 2 [4, 7] [QSet.mk 1 [9] []]) false).mpr (by decide)

theorem head_append_some {α : Type} {l l' : List α} {x : α}
    (h : l.head? = some x) : (l ++ l').head? = some x := by
  cases l with
  | nil => cases h
  | cons a t =>
    injection h with h
    rw [List.cons_append, List.head?_cons, h]

/-- First-violation correspondence: when `checkSanity` fails, the reason is
the head of the spec-side depth-first violation list. -/
theorem checker_error_first :
    ∀ q : QSet, ∀ extra depth known cnt r c,
      checkSanity extra q depth known cnt = .error (r, c) →
        (specViolations extra q depth known).1.head? = some r := by
  refine @qsetInd
    (fun q => ∀ extra depth known cnt r c,
      checkSanity extra q depth known cnt = .error (r, c) →
        (specViolations extra q depth known).1.head? = some r)
    (fun l => ∀ extra depth known cnt r c,
      checkSanityList extra l depth known cnt = .error (r, c) →
        (specViolationsList extra l depth known).1.head? = some r) ?_ ?_ ?_
  · intro t v i hi extra depth known cnt r c herr
    rw [checkSanity_mk] at herr
    rw [specViolations_mk]
    by_cases h1 : depth > 2
    · rw [if_pos h1] at herr ⊢
      injection herr with herr
      injection herr with hr _
      subst hr
      dsimp only
      exact head_append_some (head_append_some (head_append_some
        (head_append_some (head_append_some rfl))))
    rw [if_neg h1] at herr ⊢
    by_cases h2 : t < 1
    · rw [if_pos h2] at herr ⊢
      injection herr with herr
      injection herr with hr _
      subst hr
      dsimp only
      simp only [List.nil_append]
      exact head_append_some (head_append_some (head_append_some
        (head_append_some rfl)))
    rw [if_neg h2] at herr ⊢
    by_cases h3 : t > v.length + i.length
    · rw [if_pos h3] at herr ⊢
      injection herr with herr
      injection herr with hr _
      subst hr
      dsimp only
      simp only [List.nil_append]
      exact head_append_some (head_append_some (head_append_some rfl))
    rw [if_neg h3] at herr ⊢
    by_cases h4 : (extra && decide (t < v.length + i.length - t + 1)) = true
    · rw [if_pos h4] at herr ⊢
      injection herr with herr
      injection herr with hr _
      subst hr
      dsimp only
      simp only [List.nil_append]
      exact head_append_some (head_append_some rfl)
    rw [if_neg h4] at herr ⊢
    rcases hins : insertAll known v with _ | known1
    · rw [hins] at herr
      injection herr with herr
      injection herr with hr _
      subst hr
      dsimp only
      simp only [List.nil_append]
      rcases hl5 : (specInsert known v).1 with _ | ⟨r0, rest5⟩
      · exact absurd hl5 (specInsert_fst_ne_nil v known hins)
      · have hr0 : r0 = Reason.duplicateNode :=
          specInsert_fst_all_dup v known r0
            (by rw [hl5]; exact List.mem_cons_self _ _)
        rw [List.cons_append, List.head?_cons, hr0]
    · rw [hins] at herr
      rw [specInsert_of_insertAll_some v known known1 hins]
      dsimp only
      simp only [List.nil_append]
      exact hi extra (depth + 1) known1 (cnt + v.length) r c herr
  · intro extra depth known cnt r c herr
    rw [checkSanityList_nil] at herr
    cases herr
  · intro s rest hP hPL extra depth known cnt r c herr
    rw [checkSanityList_cons] at herr
    rw [specViolationsList_cons]
    rcases hs : checkSanity extra s depth known cnt with ⟨r0, c0⟩ | ⟨known1, cnt1⟩
    · rw [hs] at herr
      have hhead := hP extra depth known cnt r0 c0 hs
      injection herr with herr
      injection herr with hr _
      dsimp only
      exact head_append_some (hr ▸ hhead)
    · rw [hs] at herr
      obtain ⟨_, _, hviol1, _⟩ :=
        checker_ok_char s extra depth known cnt known1 cnt1 hs
      rw [hviol1]
      dsimp only
      simp only [List.nil_append]
      exact hPL extra depth known1 cnt1 r c herr

/-- C4 as literally stated is false: for the quorum set
`{threshold 0, validators [], innerSets []}` the checker reports the
validator-count reason ("Number of validator nodes is zero"), while the
first violation encountered in depth-first traversal order is the
threshold ≥ 1 check — the final count-bound check of the constructor
overwrites the traversal's reason. -/
theorem checker_first_violation_counterexample :
    (isQuorumSetSaneFull (QSet.mk 0 [] []) false).2 = some Reason.countZero ∧
    (specViolations false (QSet.mk 0 [] []) 0 []).1.head? =
      some Reason.thresholdTooLow ∧
    Reason.countZero ≠ Reason.thresholdTooLow := by
  refine ⟨by decide, by decide, by decide⟩

/-- C4 amended: the checker never yields both a success and a non-null
reason; it succeeds exactly when the depth-first traversal (depth check,
then threshold ≥ 1, then threshold ≤ total entries, then the extra blocking
check when enabled, then duplicate validators in list order, then inner
sets in given order) finds no violation and the total validator count lies
within [1, 1000]; whenever the reported reason is not one of the two
count-bound reasons it is exactly the first violation found in that
traversal order; and in general, when the traversal fails with accumulated
validator count `cnt` (or succeeds, with `cnt` the total count), the
reported reason is the count-bound reason whenever `cnt` is below 1 or
above 1000 — overriding the traversal's first violation — and otherwise
the traversal's first violation (or no reason, on success). -/
theorem checker_first_violation (q : QSet) (extra : Bool) :
    ((isQuorumSetSaneFull q extra).1 = true ↔
      (isQuorumSetSaneFull q extra).2 = none) ∧
    ((isQuorumSetSaneFull q extra).1 = true ↔
      ((specViolations extra q 0 []).1 = [] ∧
       1 ≤ (vals q).length ∧ (vals q).length ≤ 1000)) ∧
    (∀ r, (isQuorumSetSaneFull q extra).2 = some r →
      r ≠ Reason.countZero → r ≠ Reason.countExceedsLimit →
      (specViolations extra q 0 []).1.head? = some r) ∧
    (∀ r cnt, checkSanity extra q 0 [] 0 = .error (r, cnt) →
      (specViolations extra q 0 []).1.head? = some r ∧
      (isQuorumSetSaneFull q extra).2 =
        some (if cnt < 1 then Reason.countZero
              else if cnt > 1000 then Reason.countExceedsLimit
              else r)) ∧
    (∀ k cnt, checkSanity extra q 0 [] 0 = .ok (k, cnt) →
      cnt = (vals q).length ∧
      (isQuorumSetSaneFull q extra).2 =
        (if cnt < 1 then some Reason.countZero
         else if cnt > 1000 then some Reason.countExceedsLimit
         else none)) := by
  rcases hcs : checkSanity extra q 0 [] 0 with ⟨r0, cnt0⟩ | ⟨k0, cnt0⟩
  · have hred : isQuorumSetSaneFull q extra =
        (if cnt0 < 1 then (false, some Reason.countZero)
         else if cnt0 > 1000 then (false, some Reason.countExceedsLimit)
         else (false, some r0)) := by
      unfold isQuorumSetSaneFull
      rw [hcs]
    have hhead := checker_error_first q extra 0 [] 0 r0 cnt0 hcs
    have hne : (specViolations extra q 0 []).1 ≠ [] := by
      intro hnil
      rw [hnil] at hhead
      cases hhead
    have h1fst : (isQuorumSetSaneFull q extra).1 = false := by
      rw [hred]
      split_ifs <;> rfl
    have h2snd : (isQuorumSetSaneFull q extra).2 =
        some (if cnt0 < 1 then Reason.countZero
              else if cnt0 > 1000 then Reason.countExceedsLimit else r0) := by
      rw [hred]
      split_ifs <;> rfl
    refine ⟨?_, ?_, ?_, ?_, ?_⟩
    · rw [h1fst, h2snd]
      simp
    · rw [h1fst]
      constructor
      · intro h
        simp at h
      · rintro ⟨hnil, _⟩
        exact absurd hnil hne
    · intro r hr hrz hrx
      rw [h2snd] at hr
      injection hr with hr
      subst hr
      split_ifs at hrz hrx ⊢ with hlt hgt
      · exact absurd rfl hrz
      · exact absurd rfl hrx
      · exact hhead
    · intro r cnt herr
      injection herr with hp
      injection hp with hpr hpc
      subst hpr
      subst hpc
      exact ⟨hhead, h2snd⟩
    · intro k cnt hok
      exact Except.noConfusion hok
  · obtain ⟨hk, hc, hviol, _⟩ := checker_ok_char q extra 0 [] 0 k0 cnt0 hcs
    have hcnt : cnt0 = (vals q).length := by omega
    have hred : isQuorumSetSaneFull q extra =
        (if cnt0 < 1 then (false, some Reason.countZero)
         else if cnt0 > 1000 then (false, some Reason.countExceedsLimit)
         else (true, none)) := by
      unfold isQuorumSetSaneFull
      rw [hcs]
    refine ⟨?_, ?_, ?_, ?_, ?_⟩
    · rw [hred]
      split_ifs <;> simp
    · rw [hred]
      by_cases hlt : cnt0 < 1
      · rw [if_pos hlt]
        constructor
        · intro h
          simp at h
        · rintro ⟨_, hb1, _⟩
          exact absurd hlt (by omega)
      · rw [if_neg hlt]
        by_cases hgt : cnt0 > 1000
        · rw [if_pos hgt]
          constructor
          · intro h
            simp at h
          · rintro ⟨_, _, hb2⟩
            exact absurd hgt (by omega)
        · rw [if_neg hgt]
          constructor
          · intro _
            exact ⟨by rw [hviol], by omega, by omega⟩
          · intro _
            rfl
    · intro r hr hrz hrx
      rw [hred] at hr
      split_ifs at hr with hlt hgt
      · injection hr with hr
        exact absurd hr.symm hrz
      · injection hr with hr
        exact absurd hr.symm hrx
    · intro r cnt herr
      exact Except.noConfusion herr
    · intro k cnt hok
      injection hok with hp
      injection hp with hpk hpc
      subst hpk
      subst hpc
      refine ⟨hcnt, ?_⟩
      rw [hred]
      split_ifs <;> rfl

/-- Witness for C4: a node whose threshold exceeds its entry count fails the
traversal with accumulated count 1, reports exactly the first depth-first
violation, and the count-bound override does not apply. -/
theorem checker_first_violation_witness :
    (specViolations false (QSet.mk 5 [1] []) 0 []).1.head? =
      some Reason.thresholdExceedsEntries ∧
    (isQuorumSetSaneFull (QSet.mk 5 [1] []) false).2 =
      some (if 1 < 1 then Reason.countZero
            else if 1 > 1000 then Reason.countExceedsLimit
            else Reason.thresholdExceedsEntries) :=
  (checker_first_violation (QSet.mk 5 [1] []) false).2.2.2.1
    Reason.thresholdExceedsEntries 1 rfl

/-- Witness for C5: removing node 7 (present once) from a node with
threshold 5, and a no-op removal of an absent node. -/
theorem removeStep_spec_witness :
    (removeStep (some 7) (QSet.mk 5 [3, 7, 4] [])).threshold = 5 - 1 ∧
    removeStep (some 9) (QSet.mk 5 [3, 7, 4] []) = QSet.mk 5 [3, 7, 4] [] := by
  constructor
  · exact (((removeStep_spec (QSet.mk 5 [3, 7, 4] []) 7
      (by rw [U32_val]; decide)).1) (by decide) (by decide)).1
  · exact ((removeStep_spec (QSet.mk 5 [3, 7, 4] []) 9
      (by rw [U32_val]; decide)).2) (by decide)

end SCP
